import Mathlib

/-!
Verification of the Kronecker-product lazy-tensor core
(`gpytorch/lazy/kronecker_product_lazy_tensor.py`).

The embedding works over exact rationals.  A PyTorch tensor of shape
`(a, b, c)` is modelled by its flat, row-major (contiguous) data
`ℕ → ℚ` together with its element count; `view`/`reshape` leave the flat
data unchanged and `transpose(-3, -2)` followed by `reshape` permutes the
flat layout, which is what the index arithmetic below mirrors.
Batch dimensions are carried opaquely by the source (they are expanded by
external broadcasting helpers and never mixed with the row/column axes),
so the embedding works per batch slice.
-/

/-- A factor operator.  Modelled from the spec: the source treats each
factor as an opaque `LazyTensor` (the `LazyTensor` base class,
`lazify`, and `TriangularLazyTensor` live outside the provided core).
Per the spec's Factor Operator capability, a factor carries its
`(rows, cols)` size, a batch shape, a triangularity marker, and opaque
per-entry data for the operator itself (`entry`), for what its own
`inv_matmul` applies (`inv`), and for its own Cholesky factor (`chol`). -/
structure Fac where
  r : ℕ
  c : ℕ
  batch : List ℕ
  isTri : Bool
  entry : ℕ → ℕ → ℚ
  inv : ℕ → ℕ → ℚ
  chol : ℕ → ℕ → ℚ

/-- `∏ rows_i` over the factor list (source: `_prod` over `size(-2)`). -/
def rowsProd (fs : List Fac) : ℕ := fs.foldr (fun f a => f.r * a) 1

/-- `∏ cols_i` over the factor list (source: `_prod` over `size(-1)`). -/
def colsProd (fs : List Fac) : ℕ := fs.foldr (fun f a => f.c * a) 1

@[simp] lemma rowsProd_nil : rowsProd [] = 1 := rfl

@[simp] lemma rowsProd_cons (f : Fac) (fs : List Fac) :
    rowsProd (f :: fs) = f.r * rowsProd fs := rfl

@[simp] lemma colsProd_nil : colsProd [] = 1 := rfl

@[simp] lemma colsProd_cons (f : Fac) (fs : List Fac) :
    colsProd (f :: fs) = f.c * colsProd fs := rfl

/-- The entries of the dense Kronecker product of a factor list, by the
block formula `(A ⊗ K)[i, j] = A[i / K.rows, j / K.cols] * K[i % K.rows,
j % K.cols]` (the spec's `dense_kron`, glossary entry "Kronecker
product"; never formed by the code). -/
def denseKronEntry : List Fac → ℕ → ℕ → ℚ
  | [], _, _ => 1
  | f :: fs, i, j =>
      f.entry (i / rowsProd fs) (j / colsProd fs) *
        denseKronEntry fs (i % rowsProd fs) (j % colsProd fs)

@[simp] lemma denseKronEntry_nil (i j : ℕ) : denseKronEntry [] i j = 1 := rfl

@[simp] lemma denseKronEntry_cons (f : Fac) (fs : List Fac) (i j : ℕ) :
    denseKronEntry (f :: fs) i j =
      f.entry (i / rowsProd fs) (j / colsProd fs) *
        denseKronEntry fs (i % rowsProd fs) (j % colsProd fs) := rfl

lemma colsProd_pos {fs : List Fac} (h : ∀ f ∈ fs, 0 < f.c) : 0 < colsProd fs := by
  induction fs with
  | nil => simp
  | cons f fs ih =>
      simp only [colsProd_cons]
      exact Nat.mul_pos (h f (List.mem_cons_self f fs))
        (ih fun g hg => h g (List.mem_cons_of_mem f hg))

lemma rowsProd_pos {fs : List Fac} (h : ∀ f ∈ fs, 0 < f.r) : 0 < rowsProd fs := by
  induction fs with
  | nil => simp
  | cons f fs ih =>
      simp only [rowsProd_cons]
      exact Nat.mul_pos (h f (List.mem_cons_self f fs))
        (ih fun g hg => h g (List.mem_cons_of_mem f hg))

lemma all_r_pos {fs : List Fac} (h : 0 < rowsProd fs) : ∀ f ∈ fs, 0 < f.r := by
  induction fs with
  | nil => simp
  | cons f fs ih =>
      intro g hg
      simp only [rowsProd_cons] at h
      rcases List.mem_cons.mp hg with hg | hg
      · subst hg; exact Nat.pos_of_ne_zero fun h0 => by simp [h0] at h
      · exact ih (Nat.pos_of_ne_zero fun h0 => by simp [h0] at h) g hg

lemma all_c_pos {fs : List Fac} (h : 0 < colsProd fs) : ∀ f ∈ fs, 0 < f.c := by
  induction fs with
  | nil => simp
  | cons f fs ih =>
      intro g hg
      simp only [colsProd_cons] at h
      rcases List.mem_cons.mp hg with hg | hg
      · subst hg; exact Nat.pos_of_ne_zero fun h0 => by simp [h0] at h
      · exact ih (Nat.pos_of_ne_zero fun h0 => by simp [h0] at h) g hg

lemma c_dvd_colsProd {fs : List Fac} {f : Fac} (h : f ∈ fs) : f.c ∣ colsProd fs := by
  induction fs with
  | nil => simp at h
  | cons g fs ih =>
      rcases List.mem_cons.mp h with h | h
      · subst h; exact Dvd.intro _ rfl
      · exact dvd_mul_of_dvd_right (ih h) _

/-- Splitting a sum over `range (a*b)` along mixed-radix digits. -/
lemma kp_sum_range_add (a b : ℕ) (g : ℕ → ℚ) :
    ∑ x in Finset.range (a + b), g x =
      (∑ x in Finset.range a, g x) + ∑ x in Finset.range b, g (a + x) := by
  induction b with
  | zero => simp
  | succ n ih =>
      rw [show a + (n + 1) = (a + n) + 1 by omega, Finset.sum_range_succ, ih,
        Finset.sum_range_succ]
      ring

lemma kp_sum_range_mul (a b : ℕ) (g : ℕ → ℚ) :
    ∑ x in Finset.range (a * b), g x =
      ∑ p in Finset.range a, ∑ q in Finset.range b, g (p * b + q) := by
  induction a with
  | zero => simp
  | succ n ih =>
      rw [Nat.succ_mul, kp_sum_range_add, ih, Finset.sum_range_succ]

/-- One iteration of the free-function `_matmul` sweep (source lines
24–28).  The state is the flat contiguous data of the running result
together with its element count; `m` is `num_cols = rhs.size(-1)`.
The iteration views the running data as `(f.cols, t)` with
`t = numel / f.cols`, applies the factor (`factor[i, x] = ∑ p
f.entry i p * res[p, x]`, the factor's own `_matmul`, modelled from the
spec's Factor Operator contract), views the output as
`(f.rows, t / m, m)`, transposes the first two axes and flattens, so the
output flat element at `(q, i, l)` (with block sizes `f.rows * m` and
`m`) reads input column `q * m + l`. -/
def sweepStep (m : ℕ) (st : ℕ × (ℕ → ℚ)) (f : Fac) : ℕ × (ℕ → ℚ) :=
  let t := st.1 / f.c
  (t * f.r, fun n =>
    ∑ p in Finset.range f.c,
      f.entry (n / m % f.r) p * st.2 (p * t + n / (f.r * m) * m + n % m))

/-- The free-function `_matmul` sweep (source lines 18–29) on a
right-hand side of shape `(colsProd fs, m)`, flattened row-major. -/
def kronMatmulFlat (fs : List Fac) (m : ℕ) (rhs : ℕ → ℚ) : ℕ → ℚ :=
  (fs.foldl (sweepStep m) (colsProd fs * m, rhs)).2

/-- `KroneckerProductLazyTensor._matmul` on a 1-D right-hand side
(source lines 87–96): `unsqueeze(-1)` makes it a single column
(`m = 1`, identical flat data) and the trailing `squeeze(-1)` drops the
column axis (again identical flat data). -/
def matmulVec (fs : List Fac) (v : ℕ → ℚ) : ℕ → ℚ :=
  kronMatmulFlat fs 1 v

lemma sweepStep_fst (m L : ℕ) (v : ℕ → ℚ) (f : Fac) :
    (sweepStep m (L, v) f).1 = L / f.c * f.r := rfl

lemma sweepStep_snd_apply (m L : ℕ) (v : ℕ → ℚ) (f : Fac) (n : ℕ) :
    (sweepStep m (L, v) f).2 n =
      ∑ p in Finset.range f.c,
        f.entry (n / m % f.r) p *
          v (p * (L / f.c) + n / (f.r * m) * m + n % m) := rfl

/-- Element count bookkeeping of the sweep: starting from
`colsProd fs * K` elements, the sweep ends with `rowsProd fs * K`. -/
lemma sweep_fst (fs : List Fac) :
    ∀ (K m : ℕ) (v : ℕ → ℚ), (∀ f ∈ fs, 0 < f.c) →
      (fs.foldl (sweepStep m) (colsProd fs * K, v)).1 = rowsProd fs * K := by
  induction fs with
  | nil => intro K m v _; simp
  | cons f fs ih =>
      intro K m v hc
      have hcf : 0 < f.c := hc f (List.mem_cons_self f fs)
      rw [List.foldl_cons]
      have h1 : sweepStep m (colsProd (f :: fs) * K, v) f =
          (colsProd fs * (K * f.r), (sweepStep m (colsProd (f :: fs) * K, v) f).2) := by
        refine Prod.ext ?_ rfl
        rw [sweepStep_fst, show colsProd (f :: fs) * K = f.c * (colsProd fs * K) by
          simp [colsProd_cons]; ring, Nat.mul_div_cancel_left _ hcf]
        ring
      rw [h1, ih (K * f.r) m _ fun g hg => hc g (List.mem_cons_of_mem f hg)]
      simp [rowsProd_cons]; ring

lemma kp_mod_m (X m l : ℕ) (hl : l < m) : (X * m + l) % m = l := by
  rw [show X * m + l = l + X * m by ring, Nat.add_mul_mod_self_right]
  exact Nat.mod_eq_of_lt hl

lemma kp_div_m (X m l : ℕ) (hl : l < m) : (X * m + l) / m = X := by
  have hm : 0 < m := lt_of_le_of_lt (Nat.zero_le l) hl
  rw [show X * m + l = l + X * m by ring, Nat.add_mul_div_right _ _ hm,
    Nat.div_eq_of_lt hl, zero_add]

lemma kp_mod_digit (A fr x : ℕ) (hx : x < fr) : (A * fr + x) % fr = x := by
  rw [show A * fr + x = x + A * fr by ring, Nat.add_mul_mod_self_right]
  exact Nat.mod_eq_of_lt hx

/-- Core correctness of the `_matmul` sweep, generalized over an inner
block of size `D` (one factor of rows already produced by earlier
iterations).  On data laid out as `(colsProd fs, D, m)` the sweep
applies the dense Kronecker product along the leading axis and lays the
result out as `(D, rowsProd fs, m)`. -/
theorem sweep_general (fs : List Fac) :
    ∀ (D m : ℕ) (v : ℕ → ℚ), 0 < m → (∀ f ∈ fs, 0 < f.c) →
    ∀ b, b < D → ∀ i, i < rowsProd fs → ∀ l, l < m →
    (fs.foldl (sweepStep m) (colsProd fs * D * m, v)).2
        (b * (rowsProd fs * m) + i * m + l)
      = ∑ p in Finset.range (colsProd fs),
          denseKronEntry fs i p * v (p * (D * m) + b * m + l) := by
  induction fs with
  | nil =>
      intro D m v hm hc b hb i hi l hl
      have hi0 : i = 0 := by simpa using hi
      subst hi0
      simp
  | cons f fs ih =>
      intro D m v hm hc b hb i hi l hl
      have hcf : 0 < f.c := hc f (List.mem_cons_self f fs)
      have hc' : ∀ g ∈ fs, 0 < g.c := fun g hg => hc g (List.mem_cons_of_mem f hg)
      have hi' : i < f.r * rowsProd fs := by simpa using hi
      have hRfr : 0 < f.r * rowsProd fs := lt_of_le_of_lt (Nat.zero_le i) hi'
      have hfr : 0 < f.r := Nat.pos_of_ne_zero fun h0 => by simp [h0] at hRfr
      have hR : 0 < rowsProd fs := Nat.pos_of_ne_zero fun h0 => by simp [h0] at hRfr
      have hi₁ : i / rowsProd fs < f.r := (Nat.div_lt_iff_lt_mul hR).mpr hi'
      have hi₂ : i % rowsProd fs < rowsProd fs := Nat.mod_lt _ hR
      have hb' : b * f.r + i / rowsProd fs < D * f.r := by
        have h1 : b * f.r + i / rowsProd fs < (b + 1) * f.r := by
          rw [add_mul, one_mul]; omega
        exact lt_of_lt_of_le h1 (Nat.mul_le_mul_right _ hb)
      have hL : colsProd (f :: fs) * D * m / f.c = colsProd fs * D * m := by
        rw [show colsProd (f :: fs) * D * m = f.c * (colsProd fs * D * m) by
          simp [colsProd_cons]; ring, Nat.mul_div_cancel_left _ hcf]
      rw [List.foldl_cons]
      have hpair : sweepStep m (colsProd (f :: fs) * D * m, v) f =
          (colsProd fs * (D * f.r) * m,
            (sweepStep m (colsProd (f :: fs) * D * m, v) f).2) := by
        refine Prod.ext ?_ rfl
        rw [sweepStep_fst, hL]; ring
      rw [hpair]
      have hindex : b * (rowsProd (f :: fs) * m) + i * m + l =
          (b * f.r + i / rowsProd fs) * (rowsProd fs * m) + i % rowsProd fs * m + l := by
        have hdm : i = rowsProd fs * (i / rowsProd fs) + i % rowsProd fs :=
          (Nat.div_add_mod i (rowsProd fs)).symm
        conv_lhs => rw [hdm]
        rw [rowsProd_cons]; ring
      rw [hindex]
      rw [ih (D * f.r) m ((sweepStep m (colsProd (f :: fs) * D * m, v) f).2) hm hc'
        (b * f.r + i / rowsProd fs) hb' (i % rowsProd fs) hi₂ l hl]
      have hstepval : ∀ p' ∈ Finset.range (colsProd fs),
          (sweepStep m (colsProd (f :: fs) * D * m, v) f).2
              (p' * (D * f.r * m) + (b * f.r + i / rowsProd fs) * m + l)
            = ∑ p in Finset.range f.c,
                f.entry (i / rowsProd fs) p *
                  v ((p * colsProd fs + p') * (D * m) + b * m + l) := by
        intro p' hp'
        have e1 : p' * (D * f.r * m) + (b * f.r + i / rowsProd fs) * m + l =
            ((p' * D + b) * f.r + i / rowsProd fs) * m + l := by ring
        have h₁ : (p' * (D * f.r * m) + (b * f.r + i / rowsProd fs) * m + l) % m = l := by
          rw [e1]; exact kp_mod_m _ _ _ hl
        have h₂ : (p' * (D * f.r * m) + (b * f.r + i / rowsProd fs) * m + l) / m % f.r
            = i / rowsProd fs := by
          rw [e1, kp_div_m _ _ _ hl]; exact kp_mod_digit _ _ _ hi₁
        have hsmall : i / rowsProd fs * m + l < f.r * m := by
          calc i / rowsProd fs * m + l < i / rowsProd fs * m + m := by omega
            _ = (i / rowsProd fs + 1) * m := by ring
            _ ≤ f.r * m := Nat.mul_le_mul_right _ hi₁
        have h₃ : (p' * (D * f.r * m) + (b * f.r + i / rowsProd fs) * m + l) / (f.r * m)
            = p' * D + b := by
          rw [show p' * (D * f.r * m) + (b * f.r + i / rowsProd fs) * m + l =
            (i / rowsProd fs * m + l) + (p' * D + b) * (f.r * m) from by ring,
            Nat.add_mul_div_right _ _ (Nat.mul_pos hfr hm), Nat.div_eq_of_lt hsmall,
            zero_add]
        rw [sweepStep_snd_apply, hL, h₂, h₃, h₁]
        refine Finset.sum_congr rfl fun p hp => ?_
        congr 2
        ring
      rw [Finset.sum_congr rfl fun p' hp' => by rw [hstepval p' hp']]
      rw [show colsProd (f :: fs) = f.c * colsProd fs from by simp, kp_sum_range_mul]
      simp only [Finset.mul_sum]
      rw [Finset.sum_comm]
      refine Finset.sum_congr rfl fun p hp => Finset.sum_congr rfl fun p' hp' => ?_
      rw [denseKronEntry_cons, kp_div_m _ _ _ (Finset.mem_range.mp hp'),
        kp_mod_m _ _ _ (Finset.mem_range.mp hp')]
      ring

/-- The `_matmul` sweep on a `(colsProd fs, m)` right-hand side equals
the dense Kronecker matrix-matrix product. -/
theorem kronMatmulFlat_dense (fs : List Fac) (m : ℕ) (rhs : ℕ → ℚ)
    (hm : 0 < m) (hc : ∀ f ∈ fs, 0 < f.c) :
    ∀ i < rowsProd fs, ∀ l < m,
      kronMatmulFlat fs m rhs (i * m + l) =
        ∑ p in Finset.range (colsProd fs), denseKronEntry fs i p * rhs (p * m + l) := by
  intro i hi l hl
  have h := sweep_general fs 1 m rhs hm hc 0 (by omega) i hi l hl
  simp only [mul_one, one_mul, zero_mul, zero_add, add_zero] at h
  simpa [kronMatmulFlat] using h

/-- The vector path of `_matmul` equals the dense Kronecker
matrix-vector product. -/
theorem matmulVec_dense (fs : List Fac) (v : ℕ → ℚ) (hc : ∀ f ∈ fs, 0 < f.c) :
    ∀ i < rowsProd fs,
      matmulVec fs v i =
        ∑ p in Finset.range (colsProd fs), denseKronEntry fs i p * v p := by
  intro i hi
  have h := kronMatmulFlat_dense fs 1 v (by omega) hc i hi 0 (by omega)
  simpa [matmulVec] using h

/-- Claim C1: for every Kronecker composite and every right-hand side of shape
`(cols, m)` — or a plain vector, treated as a single column and squeezed
back — `matmul` returns a result of shape `(rows, m)` that equals the
dense Kronecker product applied to the right-hand side, elementwise,
without the dense product ever being formed (the sweep only evaluates
the individual factors). -/
theorem kron_matmul_matches_dense (fs : List Fac) (m : ℕ) (rhs : ℕ → ℚ)
    (hm : 0 < m) (hc : ∀ f ∈ fs, 0 < f.c) :
    (fs.foldl (sweepStep m) (colsProd fs * m, rhs)).1 = rowsProd fs * m ∧
    (∀ i < rowsProd fs, ∀ j < m,
      kronMatmulFlat fs m rhs (i * m + j) =
        ∑ p in Finset.range (colsProd fs), denseKronEntry fs i p * rhs (p * m + j)) ∧
    (∀ w : ℕ → ℚ, ∀ i < rowsProd fs,
      matmulVec fs w i =
        ∑ p in Finset.range (colsProd fs), denseKronEntry fs i p * w p) :=
  ⟨sweep_fst fs m m rhs hc, kronMatmulFlat_dense fs m rhs hm hc,
    fun w => matmulVec_dense fs w hc⟩

/-- A concrete 2 × 2 rational matrix as an entry function. -/
def m22 (a b c d : ℚ) : ℕ → ℕ → ℚ := fun i j =>
  if i = 0 then (if j = 0 then a else b) else (if j = 0 then c else d)

/-- A concrete 3 × 3 rational matrix as an entry function. -/
def m33 (a b c d e f g h i : ℚ) : ℕ → ℕ → ℚ := fun x y =>
  if x = 0 then (if y = 0 then a else if y = 1 then b else c)
  else if x = 1 then (if y = 0 then d else if y = 1 then e else f)
  else (if y = 0 then g else if y = 1 then h else i)

def zeroMat : ℕ → ℕ → ℚ := fun _ _ => 0

/-- The spec's 2×2 factor `A` of the worked example. -/
def facA : Fac := ⟨2, 2, [], false, m22 1 2 3 4, zeroMat, zeroMat⟩

/-- The spec's 3×3 factor `B` of the worked example. -/
def facB : Fac := ⟨3, 3, [], false, m33 1 0 2 0 1 1 1 1 0, zeroMat, zeroMat⟩

def rhs0 : ℕ → ℚ := fun n => (n : ℚ) + 1

theorem kron_matmul_matches_dense_witness :
    ((0 : ℕ) < 2 ∧ ∀ f ∈ [facA, facB], 0 < f.c) ∧
    kronMatmulFlat [facA, facB] 2 rhs0 (4 * 2 + 1) =
      ∑ p in Finset.range (colsProd [facA, facB]),
        denseKronEntry [facA, facB] 4 p * rhs0 (p * 2 + 1) :=
  ⟨⟨by decide, by decide⟩,
    (kron_matmul_matches_dense [facA, facB] 2 rhs0 (by decide) (by decide)).2.1
      4 (by decide) 1 (by decide)⟩

/-- `KroneckerProductLazyTensor._get_indices` (source lines 67–85):
starting from `row_factor = size(-2)` and `col_factor = size(-1)`,
iterate over the factors, divide the running radix by the factor's
row/col size, gather the factor entry at `(index // radix) % size`
(each factor's own `_get_indices`, modelled from the spec's Factor
Operator contract), and accumulate `sub_res * res`, starting from
`None`. -/
def getIndicesAux : List Fac → ℕ → ℕ → ℕ → ℕ → Option ℚ → Option ℚ
  | [], _, _, _, _, res => res
  | f :: fs, rf, cf, i, j, none =>
      getIndicesAux fs (rf / f.r) (cf / f.c) i j
        (some (f.entry (i / (rf / f.r) % f.r) (j / (cf / f.c) % f.c)))
  | f :: fs, rf, cf, i, j, some a =>
      getIndicesAux fs (rf / f.r) (cf / f.c) i j
        (some (f.entry (i / (rf / f.r) % f.r) (j / (cf / f.c) % f.c) * a))

def getIndices (fs : List Fac) (i j : ℕ) : Option ℚ :=
  getIndicesAux fs (rowsProd fs) (colsProd fs) i j none

/-- The claim's mixed-radix product formula: the product over factors of
each factor's entry at `(index // radix) mod factor_size`, the radix
starting at the full row/col size and being divided by each factor's
size in factor order. -/
def mixedGather : List Fac → ℕ → ℕ → ℕ → ℕ → ℚ
  | [], _, _, _, _ => 1
  | f :: fs, rf, cf, i, j =>
      f.entry (i / (rf / f.r) % f.r) (j / (cf / f.c) % f.c) *
        mixedGather fs (rf / f.r) (cf / f.c) i j

/-- The per-factor local index pairs computed by `_get_indices`. -/
def localIndexPairs : List Fac → ℕ → ℕ → ℕ → ℕ → List (ℕ × ℕ)
  | [], _, _, _, _ => []
  | f :: fs, rf, cf, i, j =>
      (i / (rf / f.r) % f.r, j / (cf / f.c) % f.c) ::
        localIndexPairs fs (rf / f.r) (cf / f.c) i j

lemma getIndicesAux_some (fs : List Fac) :
    ∀ (rf cf i j : ℕ) (a : ℚ),
      getIndicesAux fs rf cf i j (some a) =
        some (mixedGather fs rf cf i j * a) := by
  induction fs with
  | nil => intro rf cf i j a; simp [getIndicesAux, mixedGather]
  | cons f fs ih =>
      intro rf cf i j a
      rw [show getIndicesAux (f :: fs) rf cf i j (some a) =
        getIndicesAux fs (rf / f.r) (cf / f.c) i j
          (some (f.entry (i / (rf / f.r) % f.r) (j / (cf / f.c) % f.c) * a)) from rfl]
      rw [ih]
      rw [show mixedGather (f :: fs) rf cf i j =
        f.entry (i / (rf / f.r) % f.r) (j / (cf / f.c) % f.c) *
          mixedGather fs (rf / f.r) (cf / f.c) i j from rfl]
      congr 1
      ring

lemma getIndices_cons_eq (f : Fac) (fs : List Fac) (i j : ℕ) :
    getIndices (f :: fs) i j =
      some (mixedGather (f :: fs) (rowsProd (f :: fs)) (colsProd (f :: fs)) i j) := by
  rw [getIndices, show getIndicesAux (f :: fs) (rowsProd (f :: fs)) (colsProd (f :: fs)) i j none =
    getIndicesAux fs (rowsProd (f :: fs) / f.r) (colsProd (f :: fs) / f.c) i j
      (some (f.entry (i / (rowsProd (f :: fs) / f.r) % f.r)
        (j / (colsProd (f :: fs) / f.c) % f.c))) from rfl]
  rw [getIndicesAux_some]
  rw [show mixedGather (f :: fs) (rowsProd (f :: fs)) (colsProd (f :: fs)) i j =
    f.entry (i / (rowsProd (f :: fs) / f.r) % f.r)
        (j / (colsProd (f :: fs) / f.c) % f.c) *
      mixedGather fs (rowsProd (f :: fs) / f.r) (colsProd (f :: fs) / f.c) i j from rfl]
  congr 1
  ring

lemma kp_digit_div (x a b : ℕ) : x % (a * b) / b = x / b % a := by
  rw [mul_comm a b]; exact Nat.mod_mul_right_div_self x b a

lemma kp_digit_mod (x a b : ℕ) : x % (a * b) % b = x % b :=
  Nat.mod_mod_of_dvd x (dvd_mul_left b a)

lemma mixedGather_eq_dense (fs : List Fac) :
    ∀ i j, (∀ f ∈ fs, 0 < f.r) → (∀ f ∈ fs, 0 < f.c) →
      mixedGather fs (rowsProd fs) (colsProd fs) i j =
        denseKronEntry fs (i % rowsProd fs) (j % colsProd fs) := by
  induction fs with
  | nil => intro i j _ _; simp [mixedGather]
  | cons f fs ih =>
      intro i j hr hc
      have hfr : 0 < f.r := hr f (List.mem_cons_self f fs)
      have hfc : 0 < f.c := hc f (List.mem_cons_self f fs)
      rw [show mixedGather (f :: fs) (rowsProd (f :: fs)) (colsProd (f :: fs)) i j =
        f.entry (i / (rowsProd (f :: fs) / f.r) % f.r)
            (j / (colsProd (f :: fs) / f.c) % f.c) *
          mixedGather fs (rowsProd (f :: fs) / f.r) (colsProd (f :: fs) / f.c) i j from rfl]
      rw [show rowsProd (f :: fs) / f.r = rowsProd fs from by
        rw [rowsProd_cons]; exact Nat.mul_div_cancel_left _ hfr]
      rw [show colsProd (f :: fs) / f.c = colsProd fs from by
        rw [colsProd_cons]; exact Nat.mul_div_cancel_left _ hfc]
      rw [ih i j (fun g hg => hr g (List.mem_cons_of_mem f hg))
        (fun g hg => hc g (List.mem_cons_of_mem f hg))]
      rw [denseKronEntry_cons, rowsProd_cons, colsProd_cons,
        kp_digit_div i f.r (rowsProd fs), kp_digit_div j f.c (colsProd fs),
        kp_digit_mod i f.r (rowsProd fs), kp_digit_mod j f.c (colsProd fs)]

/-- Claim C2: for every composite and all valid flat indices, `_get_indices`
returns the product over factors of each factor's entry at the
mixed-radix-decoded local indices, hence the entry of the dense
Kronecker product; it also holds when applied pointwise to vectorized
index arrays (`ι`-indexed families of indices), as the source's tensor
arithmetic is elementwise. -/
theorem kron_get_indices_correct {ι : Type} (fs : List Fac) (hne : fs ≠ [])
    (ri ci : ι → ℕ) (a : ι) (hi : ri a < rowsProd fs) (hj : ci a < colsProd fs) :
    getIndices fs (ri a) (ci a) =
      some (mixedGather fs (rowsProd fs) (colsProd fs) (ri a) (ci a)) ∧
    getIndices fs (ri a) (ci a) = some (denseKronEntry fs (ri a) (ci a)) := by
  have hr : ∀ f ∈ fs, 0 < f.r := all_r_pos (lt_of_le_of_lt (Nat.zero_le _) hi)
  have hc : ∀ f ∈ fs, 0 < f.c := all_c_pos (lt_of_le_of_lt (Nat.zero_le _) hj)
  cases fs with
  | nil => exact absurd rfl hne
  | cons f fs =>
      refine ⟨getIndices_cons_eq f fs _ _, ?_⟩
      rw [getIndices_cons_eq f fs _ _, mixedGather_eq_dense _ _ _ hr hc,
        Nat.mod_eq_of_lt hi, Nat.mod_eq_of_lt hj]

theorem kron_get_indices_correct_witness :
    ([facA, facB] ≠ ([] : List Fac) ∧ (4 : ℕ) < rowsProd [facA, facB] ∧
      (5 : ℕ) < colsProd [facA, facB]) ∧
    getIndices [facA, facB] 4 5 = some (denseKronEntry [facA, facB] 4 5) :=
  ⟨⟨List.cons_ne_nil _ _, by decide, by decide⟩,
    (@kron_get_indices_correct Unit [facA, facB] (List.cons_ne_nil _ _)
      (fun _ => 4) (fun _ => 5) () (by decide) (by decide)).2⟩

lemma localIndexPairs_bounds (fs : List Fac) :
    ∀ (rf cf i j k : ℕ) (hk : k < fs.length)
      (hk₂ : k < (localIndexPairs fs rf cf i j).length),
      (∀ f ∈ fs, 0 < f.r) → (∀ f ∈ fs, 0 < f.c) →
      ((localIndexPairs fs rf cf i j).get ⟨k, hk₂⟩).1 < (fs.get ⟨k, hk⟩).r ∧
      ((localIndexPairs fs rf cf i j).get ⟨k, hk₂⟩).2 < (fs.get ⟨k, hk⟩).c := by
  induction fs with
  | nil => intro rf cf i j k hk; simp at hk
  | cons f fs ih =>
      intro rf cf i j k hk hk₂ hr hc
      cases k with
      | zero =>
          exact ⟨Nat.mod_lt _ (hr f (List.mem_cons_self f fs)),
            Nat.mod_lt _ (hc f (List.mem_cons_self f fs))⟩
      | succ n =>
          exact ih (rf / f.r) (cf / f.c) i j n (Nat.lt_of_succ_lt_succ hk)
            (Nat.lt_of_succ_lt_succ hk₂)
            (fun g hg => hr g (List.mem_cons_of_mem f hg))
            (fun g hg => hc g (List.mem_cons_of_mem f hg))

/-- Claim C10: for valid flat indices, every per-factor local index computed
by the mixed-radix decode of `_get_indices` lies within the factor's
bounds, so no factor is ever accessed out of range. -/
theorem kron_get_indices_local_bounds (fs : List Fac) (i j : ℕ)
    (hi : i < rowsProd fs) (hj : j < colsProd fs) (k : ℕ)
    (hk : k < fs.length)
    (hk₂ : k < (localIndexPairs fs (rowsProd fs) (colsProd fs) i j).length) :
    ((localIndexPairs fs (rowsProd fs) (colsProd fs) i j).get ⟨k, hk₂⟩).1 <
        (fs.get ⟨k, hk⟩).r ∧
    ((localIndexPairs fs (rowsProd fs) (colsProd fs) i j).get ⟨k, hk₂⟩).2 <
        (fs.get ⟨k, hk⟩).c :=
  localIndexPairs_bounds fs (rowsProd fs) (colsProd fs) i j k hk hk₂
    (all_r_pos (lt_of_le_of_lt (Nat.zero_le _) hi))
    (all_c_pos (lt_of_le_of_lt (Nat.zero_le _) hj))

theorem kron_get_indices_local_bounds_witness :
    ((4 : ℕ) < rowsProd [facA, facB] ∧ (5 : ℕ) < colsProd [facA, facB] ∧
      (1 : ℕ) < List.length [facA, facB] ∧
      (1 : ℕ) < (localIndexPairs [facA, facB] (rowsProd [facA, facB])
        (colsProd [facA, facB]) 4 5).length) ∧
    (((localIndexPairs [facA, facB] (rowsProd [facA, facB])
          (colsProd [facA, facB]) 4 5).get ⟨1, by decide⟩).1 <
        ([facA, facB].get ⟨1, by decide⟩).r ∧
      ((localIndexPairs [facA, facB] (rowsProd [facA, facB])
          (colsProd [facA, facB]) 4 5).get ⟨1, by decide⟩).2 <
        ([facA, facB].get ⟨1, by decide⟩).c) :=
  ⟨⟨by decide, by decide, by decide, by decide⟩,
    kron_get_indices_local_bounds [facA, facB] 4 5 (by decide) (by decide) 1
      (by decide) (by decide)⟩

/-- A factor's `_transpose_nonbatch`.  Modelled from the spec's Factor
Operator contract: the transposed factor operator's entries, solve and
Cholesky data are those of the transposed matrix. -/
def transposeFac (f : Fac) : Fac :=
  ⟨f.c, f.r, f.batch, f.isTri, fun i j => f.entry j i, fun i j => f.inv j i,
    fun i j => f.chol j i⟩

/-- `KroneckerProductLazyTensor._transpose_nonbatch` (source lines
118–119): transpose every factor, preserving factor order. -/
def transposeNonbatch (fs : List Fac) : List Fac := fs.map transposeFac

/-- One iteration of the free-function `_t_matmul` sweep (source lines
39–43): as `sweepStep` but viewing by `size(-2)` and applying the
factor's own `_t_matmul`. -/
def tSweepStep (m : ℕ) (st : ℕ × (ℕ → ℚ)) (f : Fac) : ℕ × (ℕ → ℚ) :=
  let t := st.1 / f.r
  (t * f.c, fun n =>
    ∑ p in Finset.range f.r,
      f.entry p (n / m % f.c) * st.2 (p * t + n / (f.c * m) * m + n % m))

/-- The free-function `_t_matmul` sweep (source lines 32–44) on a
right-hand side of shape `(rowsProd fs, m)` (the transposed composite
shape `kp_t_shape`), flattened row-major. -/
def tMatmulFlat (fs : List Fac) (m : ℕ) (rhs : ℕ → ℚ) : ℕ → ℚ :=
  (fs.foldl (tSweepStep m) (rowsProd fs * m, rhs)).2

/-- The vector path of `_t_matmul` (source lines 98–107). -/
def tMatmulVec (fs : List Fac) (v : ℕ → ℚ) : ℕ → ℚ := tMatmulFlat fs 1 v

lemma rowsProd_transposeNonbatch (fs : List Fac) :
    rowsProd (transposeNonbatch fs) = colsProd fs := by
  induction fs with
  | nil => rfl
  | cons f fs ih =>
      simp only [transposeNonbatch, List.map_cons, rowsProd_cons, colsProd_cons]
      rw [show (transposeFac f).r = f.c from rfl, ← ih]; rfl

lemma colsProd_transposeNonbatch (fs : List Fac) :
    colsProd (transposeNonbatch fs) = rowsProd fs := by
  induction fs with
  | nil => rfl
  | cons f fs ih =>
      simp only [transposeNonbatch, List.map_cons, rowsProd_cons, colsProd_cons]
      rw [show (transposeFac f).c = f.r from rfl, ← ih]; rfl

/-- `_t_matmul` is exactly the `_matmul` sweep of the transposed
composite. -/
lemma tMatmulFlat_eq (fs : List Fac) (m : ℕ) (rhs : ℕ → ℚ) :
    tMatmulFlat fs m rhs = kronMatmulFlat (transposeNonbatch fs) m rhs := by
  unfold tMatmulFlat kronMatmulFlat transposeNonbatch
  rw [List.foldl_map, show colsProd (List.map transposeFac fs) = rowsProd fs from
    colsProd_transposeNonbatch fs]
  rfl

lemma forall₂_swap_prods (fs gs : List Fac)
    (h : List.Forall₂ (fun f g => g.r = f.c ∧ g.c = f.r ∧
      ∀ i j, g.entry i j = f.entry j i) fs gs) :
    rowsProd gs = colsProd fs ∧ colsProd gs = rowsProd fs := by
  induction h with
  | nil => exact ⟨rfl, rfl⟩
  | cons hfg hrest ih =>
      refine ⟨?_, ?_⟩
      · rw [rowsProd_cons, colsProd_cons, ih.1, hfg.1]
      · rw [colsProd_cons, rowsProd_cons, ih.2, hfg.2.1]

lemma denseKronEntry_swap (fs gs : List Fac)
    (h : List.Forall₂ (fun f g => g.r = f.c ∧ g.c = f.r ∧
      ∀ i j, g.entry i j = f.entry j i) fs gs) :
    ∀ i j, denseKronEntry gs i j = denseKronEntry fs j i := by
  induction h with
  | nil => intro i j; simp
  | cons hfg hrest ih =>
      intro i j
      rw [denseKronEntry_cons, denseKronEntry_cons,
        (forall₂_swap_prods _ _ hrest).1, (forall₂_swap_prods _ _ hrest).2,
        hfg.2.2, ih]

lemma forall₂_transposeFac (fs : List Fac) :
    List.Forall₂ (fun f g => g.r = f.c ∧ g.c = f.r ∧
      ∀ i j, g.entry i j = f.entry j i) fs (fs.map transposeFac) := by
  induction fs with
  | nil => constructor
  | cons f fs ih => exact List.Forall₂.cons ⟨rfl, rfl, fun i j => rfl⟩ ih

lemma denseKron_transposeNonbatch (fs : List Fac) (i j : ℕ) :
    denseKronEntry (transposeNonbatch fs) i j = denseKronEntry fs j i :=
  denseKronEntry_swap fs (fs.map transposeFac) (forall₂_transposeFac fs) i j

lemma transposeNonbatch_get (fs : List Fac) :
    ∀ (k : ℕ) (hk : k < fs.length) (hk₂ : k < (transposeNonbatch fs).length),
      (transposeNonbatch fs).get ⟨k, hk₂⟩ = transposeFac (fs.get ⟨k, hk⟩) := by
  induction fs with
  | nil => intro k hk; simp at hk
  | cons f fs ih =>
      intro k hk hk₂
      cases k with
      | zero => rfl
      | succ n => exact ih n (Nat.lt_of_succ_lt_succ hk) (Nat.lt_of_succ_lt_succ hk₂)

/-- Claim C6: `transpose_matmul` equals `transpose_nonbatch().matmul` equals
applying the dense Kronecker transpose; `transpose_nonbatch` returns a
composite with every factor transposed and factor order preserved, not
reversed. -/
theorem kron_t_matmul_matches_transpose (fs : List Fac) (m : ℕ) (rhs : ℕ → ℚ)
    (hm : 0 < m) (hr : ∀ f ∈ fs, 0 < f.r) :
    (∀ n, tMatmulFlat fs m rhs n = kronMatmulFlat (transposeNonbatch fs) m rhs n) ∧
    (∀ i < colsProd fs, ∀ j < m,
      tMatmulFlat fs m rhs (i * m + j) =
        ∑ p in Finset.range (rowsProd fs), denseKronEntry fs p i * rhs (p * m + j)) ∧
    (∀ w : ℕ → ℚ, ∀ i < colsProd fs,
      tMatmulVec fs w i =
        ∑ p in Finset.range (rowsProd fs), denseKronEntry fs p i * w p) ∧
    (∀ (k : ℕ) (hk : k < fs.length) (hk₂ : k < (transposeNonbatch fs).length),
      (transposeNonbatch fs).get ⟨k, hk₂⟩ = transposeFac (fs.get ⟨k, hk⟩)) := by
  have hc' : ∀ g ∈ transposeNonbatch fs, 0 < g.c := by
    intro g hg
    obtain ⟨f, hf, rfl⟩ := List.mem_map.mp hg
    exact hr f hf
  have key : ∀ (m' : ℕ), 0 < m' → ∀ (w : ℕ → ℚ), ∀ i < colsProd fs, ∀ j < m',
      tMatmulFlat fs m' w (i * m' + j) =
        ∑ p in Finset.range (rowsProd fs), denseKronEntry fs p i * w (p * m' + j) := by
    intro m' hm' w i hi j hj
    rw [tMatmulFlat_eq]
    have h := kronMatmulFlat_dense (transposeNonbatch fs) m' w hm' hc' i
      (by rw [rowsProd_transposeNonbatch]; exact hi) j hj
    rw [h, colsProd_transposeNonbatch]
    exact Finset.sum_congr rfl fun p hp => by rw [denseKron_transposeNonbatch]
  refine ⟨fun n => by rw [tMatmulFlat_eq], key m hm rhs, ?_, transposeNonbatch_get fs⟩
  intro w i hi
  have h := key 1 (by omega) w i hi 0 (by omega)
  simpa [tMatmulVec] using h

theorem kron_t_matmul_matches_transpose_witness :
    ((0 : ℕ) < 1 ∧ ∀ f ∈ [facA, facB], 0 < f.r) ∧
    tMatmulFlat [facA, facB] 1 rhs0 (4 * 1 + 0) =
      ∑ p in Finset.range (rowsProd [facA, facB]),
        denseKronEntry [facA, facB] p 4 * rhs0 (p * 1 + 0) :=
  ⟨⟨by decide, by decide⟩,
    (kron_t_matmul_matches_transpose [facA, facB] 1 rhs0 (by decide)
      (by decide)).2.1 4 (by decide) 0 (by decide)⟩

/-- The factor-wise matrix product, used to state the mixed-product
property `(⊗ F_i) (⊗ G_i) = ⊗ (F_i G_i)` of the dense Kronecker
product. -/
def facMul (f g : Fac) : Fac :=
  ⟨f.r, g.c, f.batch, false,
    fun i j => ∑ p in Finset.range f.c, f.entry i p * g.entry p j,
    zeroMat, zeroMat⟩

lemma rowsProd_zipWith_facMul (fs gs : List Fac) (h : fs.length = gs.length) :
    rowsProd (List.zipWith facMul fs gs) = rowsProd fs := by
  induction fs generalizing gs with
  | nil => simp
  | cons f fs ih =>
      cases gs with
      | nil => simp at h
      | cons g gs =>
          simp only [List.zipWith_cons_cons, rowsProd_cons]
          rw [ih gs (by simpa using h)]
          rfl

lemma colsProd_zipWith_facMul (fs gs : List Fac) (h : fs.length = gs.length) :
    colsProd (List.zipWith facMul fs gs) = colsProd gs := by
  induction fs generalizing gs with
  | nil => cases gs with
      | nil => simp
      | cons g gs => simp at h
  | cons f fs ih =>
      cases gs with
      | nil => simp at h
      | cons g gs =>
          simp only [List.zipWith_cons_cons, colsProd_cons]
          rw [ih gs (by simpa using h)]
          rfl

lemma forall₂_colsProd_eq_rowsProd (fs gs : List Fac)
    (h : List.Forall₂ (fun f g => f.c = g.r) fs gs) :
    colsProd fs = rowsProd gs := by
  induction h with
  | nil => rfl
  | cons hfg hrest ih => rw [colsProd_cons, rowsProd_cons, hfg, ih]

/-- Mixed-product property of the dense Kronecker product:
`(⊗ F_i) @ (⊗ G_i) = ⊗ (F_i @ G_i)` (entrywise on valid indices). -/
theorem denseKron_mixed_product (fs gs : List Fac)
    (h : List.Forall₂ (fun f g => f.c = g.r) fs gs)
    (hc : ∀ f ∈ fs, 0 < f.c) :
    ∀ i < rowsProd fs, ∀ j < colsProd gs,
      ∑ p in Finset.range (colsProd fs),
          denseKronEntry fs i p * denseKronEntry gs p j =
        denseKronEntry (List.zipWith facMul fs gs) i j := by
  induction h with
  | nil =>
      intro i hi j hj
      have : i = 0 := by simpa using hi
      subst this
      have : j = 0 := by simpa using hj
      subst this
      simp
  | @cons f g fs gs hfg hrest ih =>
      intro i hi j hj
      have hlen : fs.length = gs.length := hrest.length_eq
      have hcf : 0 < f.c := hc f (List.mem_cons_self f fs)
      have hc' : ∀ x ∈ fs, 0 < x.c := fun x hx => hc x (List.mem_cons_of_mem f hx)
      have hC : 0 < colsProd fs := colsProd_pos hc'
      have hCR : colsProd fs = rowsProd gs := forall₂_colsProd_eq_rowsProd fs gs hrest
      have hi' : i < f.r * rowsProd fs := by simpa using hi
      have hj' : j < g.c * colsProd gs := by simpa using hj
      have hR : 0 < rowsProd fs :=
        Nat.pos_of_ne_zero fun h0 => by simp [h0] at hi'
      have hCg : 0 < colsProd gs :=
        Nat.pos_of_ne_zero fun h0 => by simp [h0] at hj'
      have hi₁ : i / rowsProd fs < f.r := (Nat.div_lt_iff_lt_mul hR).mpr hi'
      have hi₂ : i % rowsProd fs < rowsProd fs := Nat.mod_lt _ hR
      have hj₂ : j % colsProd gs < colsProd gs := Nat.mod_lt _ hCg
      rw [show colsProd (f :: fs) = f.c * colsProd fs from rfl, kp_sum_range_mul]
      rw [show denseKronEntry (List.zipWith facMul (f :: fs) (g :: gs)) i j =
        (facMul f g).entry (i / rowsProd (List.zipWith facMul fs gs))
            (j / colsProd (List.zipWith facMul fs gs)) *
          denseKronEntry (List.zipWith facMul fs gs)
            (i % rowsProd (List.zipWith facMul fs gs))
            (j % colsProd (List.zipWith facMul fs gs)) from rfl]
      rw [rowsProd_zipWith_facMul fs gs hlen, colsProd_zipWith_facMul fs gs hlen]
      rw [show (facMul f g).entry (i / rowsProd fs) (j / colsProd gs) =
        ∑ p in Finset.range f.c,
          f.entry (i / rowsProd fs) p * g.entry p (j / colsProd gs) from rfl]
      rw [← ih hc' (i % rowsProd fs) hi₂ (j % colsProd gs) hj₂]
      rw [Finset.sum_mul_sum]
      refine Finset.sum_congr rfl fun p hp => Finset.sum_congr rfl fun q hq => ?_
      have hq' : q < colsProd fs := Finset.mem_range.mp hq
      rw [denseKronEntry_cons f fs i (p * colsProd fs + q),
        kp_div_m _ _ _ hq', kp_mod_m _ _ _ hq']
      rw [denseKronEntry_cons g gs (p * colsProd fs + q) j]
      rw [← hCR, kp_div_m _ _ _ hq', kp_mod_m _ _ _ hq']
      ring

lemma rowsProd_eq_colsProd (fs : List Fac) (h : ∀ f ∈ fs, f.r = f.c) :
    rowsProd fs = colsProd fs := by
  induction fs with
  | nil => rfl
  | cons f fs ih =>
      rw [rowsProd_cons, colsProd_cons, h f (List.mem_cons_self f fs),
        ih fun g hg => h g (List.mem_cons_of_mem f hg)]

/-- A Kronecker product of identity matrices is the identity matrix
(entrywise on valid indices). -/
theorem denseKron_delta (fs : List Fac)
    (h : ∀ f ∈ fs, f.r = f.c ∧
      ∀ i < f.r, ∀ j < f.r, f.entry i j = if i = j then (1 : ℚ) else 0) :
    ∀ i < rowsProd fs, ∀ j < rowsProd fs,
      denseKronEntry fs i j = if i = j then (1 : ℚ) else 0 := by
  induction fs with
  | nil =>
      intro i hi j hj
      have hi0 : i = 0 := by simpa using hi
      have hj0 : j = 0 := by simpa using hj
      subst hi0; subst hj0
      simp
  | cons f fs ih =>
      intro i hi j hj
      obtain ⟨hsq, hent⟩ := h f (List.mem_cons_self f fs)
      have h' : ∀ g ∈ fs, g.r = g.c ∧
          ∀ i < g.r, ∀ j < g.r, g.entry i j = if i = j then (1 : ℚ) else 0 :=
        fun g hg => h g (List.mem_cons_of_mem f hg)
      have hi' : i < f.r * rowsProd fs := by simpa using hi
      have hj' : j < f.r * rowsProd fs := by simpa using hj
      have hR : 0 < rowsProd fs :=
        Nat.pos_of_ne_zero fun h0 => by simp [h0] at hi'
      have hcr : colsProd fs = rowsProd fs :=
        (rowsProd_eq_colsProd fs fun g hg => (h' g hg).1).symm
      rw [denseKronEntry_cons, hcr]
      rw [hent (i / rowsProd fs) ((Nat.div_lt_iff_lt_mul hR).mpr hi')
        (j / rowsProd fs) ((Nat.div_lt_iff_lt_mul hR).mpr hj')]
      rw [ih h' (i % rowsProd fs) (Nat.mod_lt _ hR) (j % rowsProd fs) (Nat.mod_lt _ hR)]
      by_cases hij : i = j
      · subst hij; simp
      · have hnot : ¬(i / rowsProd fs = j / rowsProd fs ∧
            i % rowsProd fs = j % rowsProd fs) := by
          rintro ⟨h1, h2⟩
          exact hij (by
            rw [← Nat.div_add_mod i (rowsProd fs), ← Nat.div_add_mod j (rowsProd fs),
              h1, h2])
        rw [if_neg hij]
        rcases not_and_or.mp hnot with hd | hd
        · rw [if_neg hd]; ring
        · rw [if_neg hd]; ring

/-- The factor operator that applies a factor's own `inv_matmul`
(modelled from the spec's Factor Operator contract: a factor's solve is
the application of its inverse), as a square operator of size
`q.size(-1)` — the size the `_inv_matmul` sweep reshapes by. -/
def solveFac (f : Fac) : Fac := ⟨f.c, f.c, f.batch, f.isTri, f.inv, f.entry, zeroMat⟩

/-- One iteration of `KroneckerProductLazyTensor._inv_matmul` (source
lines 139–142): reshape the running data (of `N * m` elements,
`N = right_tensor.size(-2)`) to `(n, -1)` with `n = q.size(-1)`, apply
the factor's `inv_matmul`, reshape to `(n, n_rows // n, -1)` and
permute the first two axes. -/
def solveStep (N m : ℕ) (v : ℕ → ℚ) (f : Fac) : ℕ → ℚ := fun n =>
  ∑ p in Finset.range f.c,
    f.inv (n / m % f.c) p * v (p * (N * m / f.c) + n / (f.c * m) * m + n % m)

/-- `KroneckerProductLazyTensor._inv_matmul` (source lines 132–146)
with `left_tensor = None`, on a right-hand side of shape `(N, m)`. -/
def invMatmulFlat (fs : List Fac) (N m : ℕ) (rhs : ℕ → ℚ) : ℕ → ℚ :=
  fs.foldl (solveStep N m) rhs

/-- `KroneckerProductTriangularLazyTensor.inv_matmul` (source lines
175–177): always routed to the separable `_inv_matmul`, never to the
generic non-separable fallback. -/
def triInvMatmul (fs : List Fac) (N m : ℕ) (rhs : ℕ → ℚ) : ℕ → ℚ :=
  invMatmulFlat fs N m rhs

/-- The `_inv_matmul` sweep is the `_matmul` sweep of the factors'
solve operators: for square factors the element count stays `N * m`
throughout, and each iteration's index bookkeeping coincides. -/
lemma invMatmulFlat_eq_sweep (N m : ℕ) :
    ∀ (fs : List Fac) (rhs : ℕ → ℚ), (∀ f ∈ fs, 0 < f.c ∧ f.c ∣ N) →
      invMatmulFlat fs N m rhs =
        ((fs.map solveFac).foldl (sweepStep m) (N * m, rhs)).2 := by
  intro fs
  induction fs with
  | nil => intro rhs _; rfl
  | cons f fs ih =>
      intro rhs h
      obtain ⟨hcf, hdvd⟩ := h f (List.mem_cons_self f fs)
      have hNm : f.c ∣ N * m := Dvd.dvd.mul_right hdvd m
      rw [show invMatmulFlat (f :: fs) N m rhs =
        invMatmulFlat fs N m (solveStep N m rhs f) from rfl]
      rw [List.map_cons, List.foldl_cons]
      have hpair : sweepStep m (N * m, rhs) (solveFac f) =
          (N * m, solveStep N m rhs f) := by
        refine Prod.ext ?_ rfl
        rw [sweepStep_fst]
        exact Nat.div_mul_cancel hNm
      rw [hpair]
      exact ih (solveStep N m rhs f) fun g hg => h g (List.mem_cons_of_mem f hg)

lemma rowsProd_map_solveFac (fs : List Fac) :
    rowsProd (fs.map solveFac) = colsProd fs := by
  induction fs with
  | nil => rfl
  | cons f fs ih =>
      simp only [List.map_cons, rowsProd_cons, colsProd_cons]
      rw [ih]; rfl

lemma colsProd_map_solveFac (fs : List Fac) :
    colsProd (fs.map solveFac) = colsProd fs := by
  induction fs with
  | nil => rfl
  | cons f fs ih =>
      simp only [List.map_cons, colsProd_cons]
      rw [ih]; rfl

/-- The `_inv_matmul` sweep applies the dense Kronecker product of the
factors' solve operators. -/
lemma invMatmulFlat_dense (fs : List Fac) (m : ℕ) (rhs : ℕ → ℚ) (hm : 0 < m)
    (hc : ∀ f ∈ fs, 0 < f.c) :
    ∀ i < colsProd fs, ∀ l < m,
      invMatmulFlat fs (colsProd fs) m rhs (i * m + l) =
        ∑ p in Finset.range (colsProd fs),
          denseKronEntry (fs.map solveFac) i p * rhs (p * m + l) := by
  intro i hi l hl
  have hc' : ∀ g ∈ fs.map solveFac, 0 < g.c := by
    intro g hg
    obtain ⟨f, hf, rfl⟩ := List.mem_map.mp hg
    exact hc f hf
  rw [invMatmulFlat_eq_sweep (colsProd fs) m fs rhs
    (fun f hf => ⟨hc f hf, c_dvd_colsProd hf⟩)]
  have hk : kronMatmulFlat (fs.map solveFac) m rhs =
      ((fs.map solveFac).foldl (sweepStep m) (colsProd fs * m, rhs)).2 := by
    unfold kronMatmulFlat
    rw [colsProd_map_solveFac]
  rw [← hk]
  have h := kronMatmulFlat_dense (fs.map solveFac) m rhs hm hc' i
    (by rw [rowsProd_map_solveFac]; exact hi) l hl
  rw [h, colsProd_map_solveFac]

lemma invMatmulFlat_vec_dense (fs : List Fac) (rhs : ℕ → ℚ)
    (hc : ∀ f ∈ fs, 0 < f.c) :
    ∀ i < colsProd fs,
      invMatmulFlat fs (colsProd fs) 1 rhs i =
        ∑ p in Finset.range (colsProd fs),
          denseKronEntry (fs.map solveFac) i p * rhs p := by
  intro i hi
  have h := invMatmulFlat_dense fs 1 rhs (by omega) hc i hi 0 (by omega)
  simpa using h

lemma zip_solve_delta (fs : List Fac)
    (h : ∀ f ∈ fs, f.r = f.c ∧ 0 < f.c ∧
      ∀ i < f.c, ∀ j < f.c,
        (∑ p in Finset.range f.c, f.inv i p * f.entry p j) =
          if i = j then (1 : ℚ) else 0) :
    ∀ g ∈ List.zipWith facMul (fs.map solveFac) fs, g.r = g.c ∧
      ∀ i < g.r, ∀ j < g.r, g.entry i j = if i = j then (1 : ℚ) else 0 := by
  induction fs with
  | nil => simp
  | cons f fs ih =>
      intro g hg
      rw [List.map_cons, List.zipWith_cons_cons] at hg
      rcases List.mem_cons.mp hg with hg | hg
      · subst hg
        exact ⟨rfl, fun i hi j hj => (h f (List.mem_cons_self f fs)).2.2 i hi j hj⟩
      · exact ih (fun x hx => h x (List.mem_cons_of_mem f hx)) g hg

/-- Claim C3: for every invertible composite, solving `composite @ x =
composite.matmul(v)` through the separable per-factor sweep recovers
`v`; and for triangular composites `inv_matmul` is always the separable
`_inv_matmul`, not a non-separable fallback. -/
theorem kron_solve_roundtrip (fs : List Fac)
    (h : ∀ f ∈ fs, f.r = f.c ∧ 0 < f.c ∧
      ∀ i < f.c, ∀ j < f.c,
        (∑ p in Finset.range f.c, f.inv i p * f.entry p j) =
          if i = j then (1 : ℚ) else 0)
    (v : ℕ → ℚ) :
    (∀ i < rowsProd fs,
      invMatmulFlat fs (rowsProd fs) 1 (matmulVec fs v) i = v i) ∧
    (∀ (gs : List Fac) (N m : ℕ) (w : ℕ → ℚ),
      triInvMatmul gs N m w = invMatmulFlat gs N m w) := by
  have hsq : ∀ f ∈ fs, f.r = f.c := fun f hf => (h f hf).1
  have hc : ∀ f ∈ fs, 0 < f.c := fun f hf => (h f hf).2.1
  have hrc : rowsProd fs = colsProd fs := rowsProd_eq_colsProd fs hsq
  refine ⟨?_, fun gs N m w => rfl⟩
  intro i hi
  rw [hrc] at hi ⊢
  rw [invMatmulFlat_vec_dense fs (matmulVec fs v) hc i hi]
  rw [Finset.sum_congr rfl fun p hp => by
    rw [matmulVec_dense fs v hc p (by rw [hrc]; exact Finset.mem_range.mp hp)]]
  simp only [Finset.mul_sum]
  rw [Finset.sum_comm]
  have hfa : List.Forall₂ (fun a b => a.c = b.r) (fs.map solveFac) fs := by
    clear hi hrc
    induction fs with
    | nil => constructor
    | cons f fs ih =>
        exact List.Forall₂.cons ((hsq f (List.mem_cons_self f fs)).symm)
          (ih (fun x hx => h x (List.mem_cons_of_mem f hx))
            (fun x hx => hsq x (List.mem_cons_of_mem f hx))
            (fun x hx => hc x (List.mem_cons_of_mem f hx)))
  have hc'' : ∀ g ∈ fs.map solveFac, 0 < g.c := by
    intro g hg
    obtain ⟨f, hf, rfl⟩ := List.mem_map.mp hg
    exact hc f hf
  have hlen : (fs.map solveFac).length = fs.length := by simp
  have hmid : ∀ q < colsProd fs,
      (∑ p in Finset.range (colsProd fs),
        denseKronEntry (fs.map solveFac) i p * denseKronEntry fs p q) =
        if i = q then (1 : ℚ) else 0 := by
    intro q hq
    have h1 := denseKron_mixed_product (fs.map solveFac) fs hfa hc'' i
      (by rw [rowsProd_map_solveFac]; exact hi) q hq
    rw [colsProd_map_solveFac] at h1
    rw [h1]
    exact denseKron_delta (List.zipWith facMul (fs.map solveFac) fs)
      (zip_solve_delta fs h) i
      (by rw [rowsProd_zipWith_facMul _ _ hlen, rowsProd_map_solveFac]; exact hi) q
      (by rw [rowsProd_zipWith_facMul _ _ hlen, rowsProd_map_solveFac]; exact hq)
  rw [Finset.sum_congr rfl fun q hq => by
    rw [show (∑ p in Finset.range (colsProd fs),
        denseKronEntry (fs.map solveFac) i p * (denseKronEntry fs p q * v q)) =
      (∑ p in Finset.range (colsProd fs),
        denseKronEntry (fs.map solveFac) i p * denseKronEntry fs p q) * v q from by
        rw [Finset.sum_mul]
        exact Finset.sum_congr rfl fun p _ => by ring,
      hmid q (Finset.mem_range.mp hq)]]
  rw [Finset.sum_congr rfl fun q hq => by rw [ite_mul, one_mul, zero_mul]]
  rw [Finset.sum_ite_eq]
  rw [if_pos (Finset.mem_range.mpr hi)]

/-- A lower-triangular 2×2 factor with an exact inverse. -/
def facU : Fac := ⟨2, 2, [], true, m22 1 0 1 1, m22 1 0 (-1) 1, zeroMat⟩

/-- Another triangular 2×2 factor with an exact inverse. -/
def facV : Fac := ⟨2, 2, [], true, m22 2 0 1 1, m22 (1/2) 0 (-1/2) 1, zeroMat⟩


theorem kron_solve_roundtrip_witness :
    (∀ f ∈ [facU, facV], f.r = f.c ∧ 0 < f.c ∧
      ∀ i < f.c, ∀ j < f.c,
        (∑ p in Finset.range f.c, f.inv i p * f.entry p j) =
          if i = j then (1 : ℚ) else 0) ∧
    invMatmulFlat [facU, facV] (rowsProd [facU, facV]) 1
        (matmulVec [facU, facV] rhs0) 3 = rhs0 3 :=
  ⟨by
      intro f hf
      fin_cases hf <;> simp only [facU, facV] <;>
        refine ⟨trivial, by norm_num, ?_⟩ <;>
          (intro i hi j hj
           interval_cases i <;> interval_cases j <;>
             norm_num [m22, Finset.sum_range_succ]),
    (kron_solve_roundtrip [facU, facV]
      (by
        intro f hf
        fin_cases hf <;> simp only [facU, facV] <;>
          refine ⟨trivial, by norm_num, ?_⟩ <;>
            (intro i hi j hj
             interval_cases i <;> interval_cases j <;>
               norm_num [m22, Finset.sum_range_succ]))
      rhs0).1 3 (by norm_num [rowsProd, facU, facV])⟩

lemma forall₂_prods_eq (fs gs : List Fac)
    (h : List.Forall₂ (fun f g => f.r = g.r ∧ f.c = g.c ∧
      ∀ i < f.r, ∀ j < f.c, f.entry i j = g.entry i j) fs gs) :
    rowsProd fs = rowsProd gs ∧ colsProd fs = colsProd gs := by
  induction h with
  | nil => exact ⟨rfl, rfl⟩
  | cons hfg hrest ih =>
      refine ⟨?_, ?_⟩
      · rw [rowsProd_cons, rowsProd_cons, ih.1, hfg.1]
      · rw [colsProd_cons, colsProd_cons, ih.2, hfg.2.1]

/-- Two factor lists with the same shapes and entrywise-equal factors
have the same dense Kronecker entries (on valid indices). -/
lemma denseKronEntry_congr (fs gs : List Fac)
    (h : List.Forall₂ (fun f g => f.r = g.r ∧ f.c = g.c ∧
      ∀ i < f.r, ∀ j < f.c, f.entry i j = g.entry i j) fs gs) :
    ∀ i < rowsProd fs, ∀ j < colsProd fs,
      denseKronEntry fs i j = denseKronEntry gs i j := by
  induction h with
  | nil => intro i _ j _; rfl
  | @cons f g fs gs hfg hrest ih =>
      intro i hi j hj
      have hprod := forall₂_prods_eq fs gs hrest
      have hi' : i < f.r * rowsProd fs := by simpa using hi
      have hj' : j < f.c * colsProd fs := by simpa using hj
      have hR : 0 < rowsProd fs :=
        Nat.pos_of_ne_zero fun h0 => by simp [h0] at hi'
      have hC : 0 < colsProd fs :=
        Nat.pos_of_ne_zero fun h0 => by simp [h0] at hj'
      rw [denseKronEntry_cons, denseKronEntry_cons, ← hprod.1, ← hprod.2,
        hfg.2.2 _ ((Nat.div_lt_iff_lt_mul hR).mpr hi')
          _ ((Nat.div_lt_iff_lt_mul hC).mpr hj'),
        ih (i % rowsProd fs) (Nat.mod_lt _ hR) (j % colsProd fs) (Nat.mod_lt _ hC)]

lemma forall₂_solveFac_sq (fs : List Fac) (hsq : ∀ f ∈ fs, f.r = f.c) :
    List.Forall₂ (fun a b => a.c = b.r) (fs.map solveFac) fs := by
  induction fs with
  | nil => constructor
  | cons f fs ih =>
      exact List.Forall₂.cons ((hsq f (List.mem_cons_self f fs)).symm)
        (ih fun x hx => hsq x (List.mem_cons_of_mem f hx))

/-- `(⊗ F_i⁻¹) (⊗ F_i)` is the identity (entrywise on valid indices),
for factors whose solve data is an exact left inverse. -/
lemma kron_inv_entry_delta (fs : List Fac)
    (h : ∀ f ∈ fs, f.r = f.c ∧ 0 < f.c ∧
      ∀ i < f.c, ∀ j < f.c,
        (∑ p in Finset.range f.c, f.inv i p * f.entry p j) =
          if i = j then (1 : ℚ) else 0) :
    ∀ i < colsProd fs, ∀ q < colsProd fs,
      (∑ p in Finset.range (colsProd fs),
        denseKronEntry (fs.map solveFac) i p * denseKronEntry fs p q) =
        if i = q then (1 : ℚ) else 0 := by
  intro i hi q hq
  have hsq : ∀ f ∈ fs, f.r = f.c := fun f hf => (h f hf).1
  have hc : ∀ f ∈ fs, 0 < f.c := fun f hf => (h f hf).2.1
  have hc'' : ∀ g ∈ fs.map solveFac, 0 < g.c := by
    intro g hg
    obtain ⟨f, hf, rfl⟩ := List.mem_map.mp hg
    exact hc f hf
  have hlen : (fs.map solveFac).length = fs.length := by simp
  have hfa : List.Forall₂ (fun a b => a.c = b.r) (fs.map solveFac) fs :=
    forall₂_solveFac_sq fs hsq
  have h1 := denseKron_mixed_product (fs.map solveFac) fs hfa hc'' i
    (by rw [rowsProd_map_solveFac]; exact hi) q hq
  rw [colsProd_map_solveFac] at h1
  rw [h1]
  exact denseKron_delta (List.zipWith facMul (fs.map solveFac) fs)
    (zip_solve_delta fs h) i
    (by rw [rowsProd_zipWith_facMul _ _ hlen, rowsProd_map_solveFac]; exact hi) q
    (by rw [rowsProd_zipWith_facMul _ _ hlen, rowsProd_map_solveFac]; exact hq)

/-- Applying `⊗ (solve operators)` to `composite.matmul(v)` recovers
`v`, for factors with exact inverses. -/
lemma kron_inv_apply_matmul (fs : List Fac)
    (h : ∀ f ∈ fs, f.r = f.c ∧ 0 < f.c ∧
      ∀ i < f.c, ∀ j < f.c,
        (∑ p in Finset.range f.c, f.inv i p * f.entry p j) =
          if i = j then (1 : ℚ) else 0)
    (v : ℕ → ℚ) :
    ∀ i < colsProd fs,
      (∑ p in Finset.range (colsProd fs),
        denseKronEntry (fs.map solveFac) i p * matmulVec fs v p) = v i := by
  intro i hi
  have hsq : ∀ f ∈ fs, f.r = f.c := fun f hf => (h f hf).1
  have hc : ∀ f ∈ fs, 0 < f.c := fun f hf => (h f hf).2.1
  have hrc : rowsProd fs = colsProd fs := rowsProd_eq_colsProd fs hsq
  rw [Finset.sum_congr rfl fun p hp => by
    rw [matmulVec_dense fs v hc p (by rw [hrc]; exact Finset.mem_range.mp hp)]]
  simp only [Finset.mul_sum]
  rw [Finset.sum_comm]
  rw [Finset.sum_congr rfl fun q hq => by
    rw [show (∑ p in Finset.range (colsProd fs),
        denseKronEntry (fs.map solveFac) i p * (denseKronEntry fs p q * v q)) =
      (∑ p in Finset.range (colsProd fs),
        denseKronEntry (fs.map solveFac) i p * denseKronEntry fs p q) * v q from by
        rw [Finset.sum_mul]
        exact Finset.sum_congr rfl fun p _ => by ring,
      kron_inv_entry_delta fs h i hi q (Finset.mem_range.mp hq)]]
  rw [Finset.sum_congr rfl fun q hq => by rw [ite_mul, one_mul, zero_mul]]
  rw [Finset.sum_ite_eq]
  rw [if_pos (Finset.mem_range.mpr hi)]

/-- The operator returned by a factor's own `inverse()` (modelled from
the spec's Factor Operator contract): the factor's inverse, whose
entries are the factor's solve data. -/
def inverseFac (f : Fac) : Fac := ⟨f.c, f.r, f.batch, f.isTri, f.inv, f.entry, zeroMat⟩

/-- `KroneckerProductLazyTensor.inverse` (source lines 121–125): a new
composite with each factor replaced by its own inverse. -/
def kronInverse (fs : List Fac) : List Fac := fs.map inverseFac

/-- `KroneckerProductTriangularLazyTensor.inverse` (source lines
169–173): the same factor-wise inverse, preserving the `upper` flag. -/
def kronInverseTri (fs : List Fac) (upper : Bool) : List Fac × Bool :=
  (fs.map inverseFac, upper)

lemma rowsProd_kronInverse (fs : List Fac) :
    rowsProd (kronInverse fs) = colsProd fs := by
  induction fs with
  | nil => rfl
  | cons f fs ih =>
      simp only [kronInverse, List.map_cons, rowsProd_cons, colsProd_cons] at *
      rw [ih]; rfl

lemma colsProd_kronInverse (fs : List Fac) :
    colsProd (kronInverse fs) = rowsProd fs := by
  induction fs with
  | nil => rfl
  | cons f fs ih =>
      simp only [kronInverse, List.map_cons, colsProd_cons, rowsProd_cons] at *
      rw [ih]; rfl

lemma kronInverse_get (fs : List Fac) :
    ∀ (k : ℕ) (hk : k < fs.length) (hk₂ : k < (kronInverse fs).length),
      (kronInverse fs).get ⟨k, hk₂⟩ = inverseFac (fs.get ⟨k, hk⟩) := by
  induction fs with
  | nil => intro k hk; simp at hk
  | cons f fs ih =>
      intro k hk hk₂
      cases k with
      | zero => rfl
      | succ n => exact ih n (Nat.lt_of_succ_lt_succ hk) (Nat.lt_of_succ_lt_succ hk₂)

lemma forall₂_inverse_solve (fs : List Fac) (hsq : ∀ f ∈ fs, f.r = f.c) :
    List.Forall₂ (fun f g => f.r = g.r ∧ f.c = g.c ∧
      ∀ i < f.r, ∀ j < f.c, f.entry i j = g.entry i j)
      (fs.map inverseFac) (fs.map solveFac) := by
  induction fs with
  | nil => constructor
  | cons f fs ih =>
      exact List.Forall₂.cons ⟨rfl, hsq f (List.mem_cons_self f fs), fun i _ j _ => rfl⟩
        (ih fun x hx => hsq x (List.mem_cons_of_mem f hx))

/-- Claim C7: `inverse()` returns a composite with each factor replaced by
its own inverse (in order, preserving the `upper` flag on the
triangular variant), and `composite.inverse().matmul(composite.matmul
v)` recovers `v` for invertible factors. -/
theorem kron_inverse_roundtrip (fs : List Fac)
    (h : ∀ f ∈ fs, f.r = f.c ∧ 0 < f.c ∧
      ∀ i < f.c, ∀ j < f.c,
        (∑ p in Finset.range f.c, f.inv i p * f.entry p j) =
          if i = j then (1 : ℚ) else 0)
    (v : ℕ → ℚ) :
    (∀ (k : ℕ) (hk : k < fs.length) (hk₂ : k < (kronInverse fs).length),
      (kronInverse fs).get ⟨k, hk₂⟩ = inverseFac (fs.get ⟨k, hk⟩) ∧
      ((kronInverse fs).get ⟨k, hk₂⟩).entry = (fs.get ⟨k, hk⟩).inv) ∧
    (∀ u : Bool, (kronInverseTri fs u).1 = kronInverse fs ∧ (kronInverseTri fs u).2 = u) ∧
    (∀ i < rowsProd fs,
      matmulVec (kronInverse fs) (matmulVec fs v) i = v i) := by
  have hsq : ∀ f ∈ fs, f.r = f.c := fun f hf => (h f hf).1
  have hc : ∀ f ∈ fs, 0 < f.c := fun f hf => (h f hf).2.1
  have hrc : rowsProd fs = colsProd fs := rowsProd_eq_colsProd fs hsq
  refine ⟨fun k hk hk₂ => ⟨kronInverse_get fs k hk hk₂, by rw [kronInverse_get fs k hk hk₂]; rfl⟩,
    fun u => ⟨rfl, rfl⟩, ?_⟩
  intro i hi
  rw [hrc] at hi
  have hcinv : ∀ g ∈ kronInverse fs, 0 < g.c := by
    intro g hg
    obtain ⟨f, hf, rfl⟩ := List.mem_map.mp hg
    show 0 < f.r
    rw [hsq f hf]
    exact hc f hf
  rw [matmulVec_dense (kronInverse fs) (matmulVec fs v) hcinv i
    (by rw [rowsProd_kronInverse]; exact hi)]
  rw [colsProd_kronInverse, hrc]
  have hcong : ∀ p < colsProd fs,
      denseKronEntry (kronInverse fs) i p = denseKronEntry (fs.map solveFac) i p := by
    intro p hp
    exact denseKronEntry_congr (kronInverse fs) (fs.map solveFac)
      (forall₂_inverse_solve fs hsq) i (by rw [rowsProd_kronInverse]; exact hi) p
      (by rw [colsProd_kronInverse, hrc]; exact hp)
  rw [Finset.sum_congr rfl fun p hp => by rw [hcong p (Finset.mem_range.mp hp)]]
  exact kron_inv_apply_matmul fs h v i hi

theorem kron_inverse_roundtrip_witness :
    (∀ f ∈ [facU, facV], f.r = f.c ∧ 0 < f.c ∧
      ∀ i < f.c, ∀ j < f.c,
        (∑ p in Finset.range f.c, f.inv i p * f.entry p j) =
          if i = j then (1 : ℚ) else 0) ∧
    matmulVec (kronInverse [facU, facV]) (matmulVec [facU, facV] rhs0) 3 = rhs0 3 :=
  ⟨by
      intro f hf
      fin_cases hf <;> simp only [facU, facV] <;>
        refine ⟨trivial, by norm_num, ?_⟩ <;>
          (intro i hi j hj
           interval_cases i <;> interval_cases j <;>
             norm_num [m22, Finset.sum_range_succ]),
    (kron_inverse_roundtrip [facU, facV]
      (by
        intro f hf
        fin_cases hf <;> simp only [facU, facV] <;>
          refine ⟨trivial, by norm_num, ?_⟩ <;>
            (intro i hi j hj
             interval_cases i <;> interval_cases j <;>
               norm_num [m22, Finset.sum_range_succ]))
      rhs0).2.2 3 (by decide)⟩

/-- The triangular operator returned by a factor's own `_cholesky`
(modelled from the spec's Factor Operator contract): its entries are
the factor's Cholesky data, and it is a `TriangularLazyTensor`. -/
def cholFacOp (f : Fac) : Fac := ⟨f.r, f.c, f.batch, true, f.chol, zeroMat, zeroMat⟩

/-- The factor list of `KroneckerProductLazyTensor._cholesky` (source
lines 62–65): each factor's own Cholesky factor, in factor order. -/
def kronCholeskyFactors (fs : List Fac) : List Fac := fs.map cholFacOp

/-- `KroneckerProductLazyTensor._cholesky` (source lines 62–65): a
Kronecker triangular composite of the per-factor Cholesky factors,
carrying the given `upper` flag. -/
def kronCholesky (fs : List Fac) (upper : Bool) : List Fac × Bool :=
  (fs.map cholFacOp, upper)

lemma rowsProd_kronCholeskyFactors (fs : List Fac) :
    rowsProd (kronCholeskyFactors fs) = rowsProd fs := by
  induction fs with
  | nil => rfl
  | cons f fs ih =>
      simp only [kronCholeskyFactors, List.map_cons, rowsProd_cons] at *
      rw [ih]; rfl

lemma colsProd_kronCholeskyFactors (fs : List Fac) :
    colsProd (kronCholeskyFactors fs) = colsProd fs := by
  induction fs with
  | nil => rfl
  | cons f fs ih =>
      simp only [kronCholeskyFactors, List.map_cons, colsProd_cons] at *
      rw [ih]; rfl

lemma kronCholeskyFactors_get (fs : List Fac) :
    ∀ (k : ℕ) (hk : k < fs.length) (hk₂ : k < (kronCholeskyFactors fs).length),
      (kronCholeskyFactors fs).get ⟨k, hk₂⟩ = cholFacOp (fs.get ⟨k, hk⟩) := by
  induction fs with
  | nil => intro k hk; simp at hk
  | cons f fs ih =>
      intro k hk hk₂
      cases k with
      | zero => rfl
      | succ n => exact ih n (Nat.lt_of_succ_lt_succ hk) (Nat.lt_of_succ_lt_succ hk₂)

lemma forall₂_transpose_cr (gs : List Fac) :
    List.Forall₂ (fun a b => a.c = b.r) gs (transposeNonbatch gs) := by
  induction gs with
  | nil => constructor
  | cons g gs ih => exact List.Forall₂.cons rfl ih

lemma zip_chol_forall₂ (fs : List Fac)
    (h : ∀ f ∈ fs, f.r = f.c ∧ 0 < f.c ∧
      ∀ i < f.c, ∀ j < f.c,
        (∑ p in Finset.range f.c, f.chol i p * f.chol j p) = f.entry i j) :
    List.Forall₂ (fun a b => a.r = b.r ∧ a.c = b.c ∧
      ∀ i < a.r, ∀ j < a.c, a.entry i j = b.entry i j)
      (List.zipWith facMul (kronCholeskyFactors fs)
        (transposeNonbatch (kronCholeskyFactors fs))) fs := by
  induction fs with
  | nil => constructor
  | cons f fs ih =>
      have hsqf : f.r = f.c := (h f (List.mem_cons_self f fs)).1
      refine List.Forall₂.cons ⟨rfl, hsqf, ?_⟩
        (ih fun x hx => h x (List.mem_cons_of_mem f hx))
      intro a ha b hb
      show (∑ p in Finset.range f.c, f.chol a p * f.chol b p) = f.entry a b
      exact (h f (List.mem_cons_self f fs)).2.2 a (lt_of_lt_of_eq ha hsqf)
        b (lt_of_lt_of_eq hb hsqf)

/-- Claim C4: `_cholesky(upper)` is the Kronecker triangular composite of the
per-factor Cholesky factors, in factor order, and it satisfies
`L @ L^T = composite`: `chol.matmul(chol.transpose_matmul(v))` equals
`composite.matmul(v)` for every `v`, for factors whose Cholesky data is
exact (symmetric positive-definite factors). -/
theorem kron_cholesky_correct (fs : List Fac) (u : Bool)
    (h : ∀ f ∈ fs, f.r = f.c ∧ 0 < f.c ∧
      ∀ i < f.c, ∀ j < f.c,
        (∑ p in Finset.range f.c, f.chol i p * f.chol j p) = f.entry i j)
    (v : ℕ → ℚ) :
    ((kronCholesky fs u).1 = kronCholeskyFactors fs ∧ (kronCholesky fs u).2 = u) ∧
    (∀ (k : ℕ) (hk : k < fs.length) (hk₂ : k < (kronCholeskyFactors fs).length),
      (kronCholeskyFactors fs).get ⟨k, hk₂⟩ = cholFacOp (fs.get ⟨k, hk⟩) ∧
      ((kronCholeskyFactors fs).get ⟨k, hk₂⟩).isTri = true) ∧
    (∀ i < rowsProd fs,
      matmulVec (kronCholeskyFactors fs) (tMatmulVec (kronCholeskyFactors fs) v) i =
        matmulVec fs v i) := by
  have hsq : ∀ f ∈ fs, f.r = f.c := fun f hf => (h f hf).1
  have hc : ∀ f ∈ fs, 0 < f.c := fun f hf => (h f hf).2.1
  have hrc : rowsProd fs = colsProd fs := rowsProd_eq_colsProd fs hsq
  refine ⟨⟨rfl, rfl⟩, fun k hk hk₂ =>
    ⟨kronCholeskyFactors_get fs k hk hk₂,
      by rw [kronCholeskyFactors_get fs k hk hk₂]; rfl⟩, ?_⟩
  intro i hi
  have hRcs : rowsProd (kronCholeskyFactors fs) = rowsProd fs :=
    rowsProd_kronCholeskyFactors fs
  have hCcs : colsProd (kronCholeskyFactors fs) = colsProd fs :=
    colsProd_kronCholeskyFactors fs
  have hc_cs : ∀ g ∈ kronCholeskyFactors fs, 0 < g.c := by
    intro g hg
    obtain ⟨f, hf, rfl⟩ := List.mem_map.mp hg
    exact hc f hf
  have hr_cs : ∀ g ∈ transposeNonbatch (kronCholeskyFactors fs), 0 < g.c := by
    intro g hg
    obtain ⟨x, hx, rfl⟩ := List.mem_map.mp hg
    obtain ⟨f, hf, rfl⟩ := List.mem_map.mp hx
    show 0 < f.r
    rw [hsq f hf]
    exact hc f hf
  rw [matmulVec_dense (kronCholeskyFactors fs) (tMatmulVec (kronCholeskyFactors fs) v)
    hc_cs i (by rw [hRcs]; exact hi)]
  have htv : ∀ p < colsProd (kronCholeskyFactors fs),
      tMatmulVec (kronCholeskyFactors fs) v p =
        ∑ q in Finset.range (rowsProd (kronCholeskyFactors fs)),
          denseKronEntry (kronCholeskyFactors fs) q p * v q := by
    intro p hp
    have e : tMatmulVec (kronCholeskyFactors fs) v =
        matmulVec (transposeNonbatch (kronCholeskyFactors fs)) v := by
      unfold tMatmulVec matmulVec
      exact tMatmulFlat_eq (kronCholeskyFactors fs) 1 v
    rw [e, matmulVec_dense (transposeNonbatch (kronCholeskyFactors fs)) v hr_cs p
      (by rw [rowsProd_transposeNonbatch]; exact hp), colsProd_transposeNonbatch]
    exact Finset.sum_congr rfl fun q hq => by rw [denseKron_transposeNonbatch]
  rw [Finset.sum_congr rfl fun p hp => by rw [htv p (Finset.mem_range.mp hp)]]
  simp only [Finset.mul_sum]
  rw [Finset.sum_comm]
  have hmid : ∀ q < rowsProd (kronCholeskyFactors fs),
      (∑ p in Finset.range (colsProd (kronCholeskyFactors fs)),
        denseKronEntry (kronCholeskyFactors fs) i p *
          denseKronEntry (kronCholeskyFactors fs) q p) = denseKronEntry fs i q := by
    intro q hq
    rw [Finset.sum_congr rfl fun p hp => by
      rw [← denseKron_transposeNonbatch (kronCholeskyFactors fs) p q]]
    have h1 := denseKron_mixed_product (kronCholeskyFactors fs)
      (transposeNonbatch (kronCholeskyFactors fs))
      (forall₂_transpose_cr (kronCholeskyFactors fs)) hc_cs i
      (by rw [hRcs]; exact hi) q
      (by rw [colsProd_transposeNonbatch]; exact hq)
    rw [h1]
    refine denseKronEntry_congr _ fs (zip_chol_forall₂ fs h) i ?_ q ?_
    · rw [rowsProd_zipWith_facMul _ _ (by simp [kronCholeskyFactors, transposeNonbatch]),
        hRcs]
      exact hi
    · rw [colsProd_zipWith_facMul _ _ (by simp [kronCholeskyFactors, transposeNonbatch]),
        colsProd_transposeNonbatch]
      exact hq
  rw [Finset.sum_congr rfl fun q hq => by
    rw [show (∑ p in Finset.range (colsProd (kronCholeskyFactors fs)),
        denseKronEntry (kronCholeskyFactors fs) i p *
          (denseKronEntry (kronCholeskyFactors fs) q p * v q)) =
      (∑ p in Finset.range (colsProd (kronCholeskyFactors fs)),
        denseKronEntry (kronCholeskyFactors fs) i p *
          denseKronEntry (kronCholeskyFactors fs) q p) * v q from by
        rw [Finset.sum_mul]
        exact Finset.sum_congr rfl fun p _ => by ring,
      hmid q (Finset.mem_range.mp hq)]]
  rw [hRcs, hrc]
  exact (matmulVec_dense fs v hc i hi).symm

/-- An SPD 2×2 factor with its exact Cholesky factor `[[1,0],[1,1]]`. -/
def facP : Fac := ⟨2, 2, [], false, m22 1 1 1 2, zeroMat, m22 1 0 1 1⟩

/-- An SPD 2×2 factor with its exact Cholesky factor `[[2,0],[1,1]]`. -/
def facQ : Fac := ⟨2, 2, [], false, m22 4 2 2 2, zeroMat, m22 2 0 1 1⟩

theorem kron_cholesky_correct_witness :
    (∀ f ∈ [facP, facQ], f.r = f.c ∧ 0 < f.c ∧
      ∀ i < f.c, ∀ j < f.c,
        (∑ p in Finset.range f.c, f.chol i p * f.chol j p) = f.entry i j) ∧
    matmulVec (kronCholeskyFactors [facP, facQ])
        (tMatmulVec (kronCholeskyFactors [facP, facQ]) rhs0) 2 =
      matmulVec [facP, facQ] rhs0 2 :=
  ⟨by
      intro f hf
      fin_cases hf <;> simp only [facP, facQ] <;>
        refine ⟨trivial, by norm_num, ?_⟩ <;>
          (intro i hi j hj
           interval_cases i <;> interval_cases j <;>
             norm_num [m22, Finset.sum_range_succ]),
    (kron_cholesky_correct [facP, facQ] false
      (by
        intro f hf
        fin_cases hf <;> simp only [facP, facQ] <;>
          refine ⟨trivial, by norm_num, ?_⟩ <;>
            (intro i hi j hj
             interval_cases i <;> interval_cases j <;>
               norm_num [m22, Finset.sum_range_succ]))
      rhs0).2.2 2 (by decide)⟩

/-- `KroneckerProductTriangularLazyTensor._cholesky_solve` (source
lines 158–167): the two-step substitution through the separable
triangular solves — `upper`: `w = transpose(T).inv_matmul(rhs)` then
`T.inv_matmul(w)`; otherwise `w = T.inv_matmul(rhs)` then
`transpose(T).inv_matmul(w)`. -/
def choleskySolveFlat (fs : List Fac) (upper : Bool) (N m : ℕ) (rhs : ℕ → ℚ) : ℕ → ℚ :=
  if upper then
    triInvMatmul fs N m (triInvMatmul (transposeNonbatch fs) N m rhs)
  else
    triInvMatmul (transposeNonbatch fs) N m (triInvMatmul fs N m rhs)

/-- The dense Gram matrix `T @ T^T` of a composite (the spec's
`dense_kron` against which `cholesky_solve` is compared). -/
def gramKron (fs : List Fac) : ℕ → ℕ → ℚ := fun i j =>
  ∑ q in Finset.range (colsProd fs), denseKronEntry fs i q * denseKronEntry fs j q

/-- Matrix product of entry functions over an `N × N` index range. -/
def matMulN (N : ℕ) (A B : ℕ → ℕ → ℚ) : ℕ → ℕ → ℚ := fun i j =>
  ∑ p in Finset.range N, A i p * B p j

lemma matMulN_assoc (N : ℕ) (A B C : ℕ → ℕ → ℚ) (i j : ℕ) :
    matMulN N A (matMulN N B C) i j = matMulN N (matMulN N A B) C i j := by
  unfold matMulN
  simp only [Finset.mul_sum, Finset.sum_mul]
  rw [Finset.sum_comm]
  exact Finset.sum_congr rfl fun q _ => Finset.sum_congr rfl fun p _ => by ring

lemma matMulN_delta_left (N : ℕ) (E M : ℕ → ℕ → ℚ)
    (hE : ∀ i < N, ∀ j < N, E i j = if i = j then (1 : ℚ) else 0) :
    ∀ i < N, ∀ j, matMulN N E M i j = M i j := by
  intro i hi j
  unfold matMulN
  rw [Finset.sum_congr rfl fun p hp => by
    rw [hE i hi p (Finset.mem_range.mp hp), ite_mul, one_mul, zero_mul]]
  rw [Finset.sum_ite_eq, if_pos (Finset.mem_range.mpr hi)]

lemma matMulN_delta_right (N : ℕ) (M E : ℕ → ℕ → ℚ)
    (hE : ∀ i < N, ∀ j < N, E i j = if i = j then (1 : ℚ) else 0) :
    ∀ i, ∀ j < N, matMulN N M E i j = M i j := by
  intro i j hj
  unfold matMulN
  rw [Finset.sum_congr rfl fun p hp => by
    rw [hE p (Finset.mem_range.mp hp) j hj, mul_ite, mul_one, mul_zero]]
  rw [Finset.sum_ite_eq', if_pos (Finset.mem_range.mpr hj)]

lemma forall₂_entry_solve (fs : List Fac) :
    List.Forall₂ (fun a b => a.c = b.r) fs (fs.map solveFac) := by
  induction fs with
  | nil => constructor
  | cons f fs ih => exact List.Forall₂.cons rfl ih

lemma zip_entry_solve_delta (fs : List Fac)
    (h : ∀ f ∈ fs, f.r = f.c ∧ 0 < f.c ∧
      ∀ i < f.c, ∀ j < f.c,
        (∑ p in Finset.range f.c, f.entry i p * f.inv p j) =
          if i = j then (1 : ℚ) else 0) :
    ∀ g ∈ List.zipWith facMul fs (fs.map solveFac), g.r = g.c ∧
      ∀ i < g.r, ∀ j < g.r, g.entry i j = if i = j then (1 : ℚ) else 0 := by
  induction fs with
  | nil => simp
  | cons f fs ih =>
      intro g hg
      rw [List.map_cons, List.zipWith_cons_cons] at hg
      rcases List.mem_cons.mp hg with hg | hg
      · subst hg
        have hsqf : f.r = f.c := (h f (List.mem_cons_self f fs)).1
        refine ⟨hsqf, fun i hi j hj => ?_⟩
        exact (h f (List.mem_cons_self f fs)).2.2 i (lt_of_lt_of_eq hi hsqf)
          j (lt_of_lt_of_eq hj hsqf)
      · exact ih (fun x hx => h x (List.mem_cons_of_mem f hx)) g hg

/-- `(⊗ F_i) (⊗ F_i⁻¹)` is the identity (entrywise on valid indices),
for factors whose solve data is an exact right inverse. -/
lemma kron_entry_inv_delta (fs : List Fac)
    (h : ∀ f ∈ fs, f.r = f.c ∧ 0 < f.c ∧
      ∀ i < f.c, ∀ j < f.c,
        (∑ p in Finset.range f.c, f.entry i p * f.inv p j) =
          if i = j then (1 : ℚ) else 0) :
    ∀ i < colsProd fs, ∀ q < colsProd fs,
      (∑ p in Finset.range (colsProd fs),
        denseKronEntry fs i p * denseKronEntry (fs.map solveFac) p q) =
        if i = q then (1 : ℚ) else 0 := by
  intro i hi q hq
  have hsq : ∀ f ∈ fs, f.r = f.c := fun f hf => (h f hf).1
  have hc : ∀ f ∈ fs, 0 < f.c := fun f hf => (h f hf).2.1
  have hrc : rowsProd fs = colsProd fs := rowsProd_eq_colsProd fs hsq
  have hlen : (fs.map solveFac).length = fs.length := by simp
  have h1 := denseKron_mixed_product fs (fs.map solveFac) (forall₂_entry_solve fs) hc i
    (by rw [hrc]; exact hi) q (by rw [colsProd_map_solveFac]; exact hq)
  rw [h1]
  exact denseKron_delta (List.zipWith facMul fs (fs.map solveFac))
    (zip_entry_solve_delta fs h) i
    (by rw [rowsProd_zipWith_facMul _ _ (by simp), hrc]; exact hi) q
    (by rw [rowsProd_zipWith_facMul _ _ (by simp), hrc]; exact hq)

lemma forall₂_solve_transpose (fs : List Fac) (hsq : ∀ f ∈ fs, f.r = f.c) :
    List.Forall₂ (fun f g => g.r = f.c ∧ g.c = f.r ∧
      ∀ i j, g.entry i j = f.entry j i)
      (fs.map solveFac) ((transposeNonbatch fs).map solveFac) := by
  induction fs with
  | nil => constructor
  | cons f fs ih =>
      refine List.Forall₂.cons
        ⟨hsq f (List.mem_cons_self f fs), hsq f (List.mem_cons_self f fs),
          fun i j => rfl⟩
        (ih fun x hx => hsq x (List.mem_cons_of_mem f hx))

lemma invMatmulFlat_dense' (gs : List Fac) (N m : ℕ) (w : ℕ → ℚ) (hm : 0 < m)
    (hc : ∀ f ∈ gs, 0 < f.c) (hN : N = colsProd gs) :
    ∀ i < colsProd gs, ∀ l < m,
      invMatmulFlat gs N m w (i * m + l) =
        ∑ p in Finset.range (colsProd gs),
          denseKronEntry (gs.map solveFac) i p * w (p * m + l) := by
  subst hN
  exact invMatmulFlat_dense gs m w hm hc

/-- Claim C5: `_cholesky_solve(rhs, upper)` performs exactly the two-step
substitution through the separable triangular solves, and when the
factors carry exact inverses and `Kinv` is an inverse of the dense
`T @ T^T`, the lower path equals `K⁻¹ @ rhs` elementwise. -/
theorem kron_cholesky_solve_correct (fs : List Fac) (m : ℕ) (hm : 0 < m)
    (h : ∀ f ∈ fs, f.r = f.c ∧ 0 < f.c ∧
      (∀ i < f.c, ∀ j < f.c,
        (∑ p in Finset.range f.c, f.inv i p * f.entry p j) =
          if i = j then (1 : ℚ) else 0) ∧
      (∀ i < f.c, ∀ j < f.c,
        (∑ p in Finset.range f.c, f.entry i p * f.inv p j) =
          if i = j then (1 : ℚ) else 0))
    (Kinv : ℕ → ℕ → ℚ)
    (hK : ∀ i < rowsProd fs, ∀ j < rowsProd fs,
      (∑ p in Finset.range (rowsProd fs), Kinv i p * gramKron fs p j) =
        if i = j then (1 : ℚ) else 0)
    (rhs : ℕ → ℚ) :
    (∀ w : ℕ → ℚ, choleskySolveFlat fs true (rowsProd fs) m w =
      triInvMatmul fs (rowsProd fs) m
        (triInvMatmul (transposeNonbatch fs) (rowsProd fs) m w)) ∧
    (∀ w : ℕ → ℚ, choleskySolveFlat fs false (rowsProd fs) m w =
      triInvMatmul (transposeNonbatch fs) (rowsProd fs) m
        (triInvMatmul fs (rowsProd fs) m w)) ∧
    (∀ i < rowsProd fs, ∀ j < m,
      choleskySolveFlat fs false (rowsProd fs) m rhs (i * m + j) =
        ∑ p in Finset.range (rowsProd fs), Kinv i p * rhs (p * m + j)) := by
  have hsq : ∀ f ∈ fs, f.r = f.c := fun f hf => (h f hf).1
  have hc : ∀ f ∈ fs, 0 < f.c := fun f hf => (h f hf).2.1
  have hLh : ∀ f ∈ fs, f.r = f.c ∧ 0 < f.c ∧
      ∀ i < f.c, ∀ j < f.c,
        (∑ p in Finset.range f.c, f.inv i p * f.entry p j) =
          if i = j then (1 : ℚ) else 0 :=
    fun f hf => ⟨(h f hf).1, (h f hf).2.1, (h f hf).2.2.1⟩
  have hRh : ∀ f ∈ fs, f.r = f.c ∧ 0 < f.c ∧
      ∀ i < f.c, ∀ j < f.c,
        (∑ p in Finset.range f.c, f.entry i p * f.inv p j) =
          if i = j then (1 : ℚ) else 0 :=
    fun f hf => ⟨(h f hf).1, (h f hf).2.1, (h f hf).2.2.2⟩
  have hrc : rowsProd fs = colsProd fs := rowsProd_eq_colsProd fs hsq
  refine ⟨fun w => rfl, fun w => rfl, ?_⟩
  intro i hi j hj
  have hcτ : ∀ g ∈ transposeNonbatch fs, 0 < g.c := by
    intro g hg
    obtain ⟨f, hf, rfl⟩ := List.mem_map.mp hg
    show 0 < f.r
    rw [hsq f hf]
    exact hc f hf
  have e0 : choleskySolveFlat fs false (rowsProd fs) m rhs =
      invMatmulFlat (transposeNonbatch fs) (rowsProd fs) m
        (invMatmulFlat fs (rowsProd fs) m rhs) := rfl
  rw [e0]
  have houter := invMatmulFlat_dense' (transposeNonbatch fs) (rowsProd fs) m
    (invMatmulFlat fs (rowsProd fs) m rhs) hm hcτ (colsProd_transposeNonbatch fs).symm i
    (by rw [colsProd_transposeNonbatch]; exact hi) j hj
  rw [houter, colsProd_transposeNonbatch]
  have hswap : ∀ p, denseKronEntry ((transposeNonbatch fs).map solveFac) i p =
      denseKronEntry (fs.map solveFac) p i :=
    fun p => denseKronEntry_swap (fs.map solveFac) ((transposeNonbatch fs).map solveFac)
      (forall₂_solve_transpose fs hsq) i p
  have hinner : ∀ p < rowsProd fs,
      invMatmulFlat fs (rowsProd fs) m rhs (p * m + j) =
        ∑ q in Finset.range (rowsProd fs),
          denseKronEntry (fs.map solveFac) p q * rhs (q * m + j) := by
    intro p hp
    have e := invMatmulFlat_dense' fs (rowsProd fs) m rhs hm hc hrc p
      (by rw [← hrc]; exact hp) j hj
    rw [e, ← hrc]
  rw [Finset.sum_congr rfl fun p hp => by
    rw [hswap p, hinner p (Finset.mem_range.mp hp)]]
  simp only [Finset.mul_sum]
  rw [Finset.sum_comm]
  have hAT : ∀ a < rowsProd fs, ∀ b < rowsProd fs,
      matMulN (rowsProd fs) (denseKronEntry (fs.map solveFac)) (denseKronEntry fs) a b =
        if a = b then (1 : ℚ) else 0 := by
    intro a ha b hb
    have e := kron_inv_entry_delta fs hLh a (by rw [← hrc]; exact ha) b
      (by rw [← hrc]; exact hb)
    rw [show matMulN (rowsProd fs) (denseKronEntry (fs.map solveFac)) (denseKronEntry fs) a b =
      ∑ p in Finset.range (colsProd fs),
        denseKronEntry (fs.map solveFac) a p * denseKronEntry fs p b from by
        rw [show Finset.range (colsProd fs) = Finset.range (rowsProd fs) from by rw [hrc]]
        rfl]
    exact e
  have hTA : ∀ a < rowsProd fs, ∀ b < rowsProd fs,
      matMulN (rowsProd fs) (denseKronEntry fs) (denseKronEntry (fs.map solveFac)) a b =
        if a = b then (1 : ℚ) else 0 := by
    intro a ha b hb
    have e := kron_entry_inv_delta fs hRh a (by rw [← hrc]; exact ha) b
      (by rw [← hrc]; exact hb)
    rw [show matMulN (rowsProd fs) (denseKronEntry fs) (denseKronEntry (fs.map solveFac)) a b =
      ∑ p in Finset.range (colsProd fs),
        denseKronEntry fs a p * denseKronEntry (fs.map solveFac) p b from by
        rw [show Finset.range (colsProd fs) = Finset.range (rowsProd fs) from by rw [hrc]]
        rfl]
    exact e
  have hTtAt : ∀ a < rowsProd fs, ∀ b < rowsProd fs,
      matMulN (rowsProd fs) (fun x y => denseKronEntry fs y x)
          (fun x y => denseKronEntry (fs.map solveFac) y x) a b =
        if a = b then (1 : ℚ) else 0 := by
    intro a ha b hb
    have e : matMulN (rowsProd fs) (fun x y => denseKronEntry fs y x)
        (fun x y => denseKronEntry (fs.map solveFac) y x) a b =
        matMulN (rowsProd fs) (denseKronEntry (fs.map solveFac)) (denseKronEntry fs) b a := by
      exact Finset.sum_congr rfl fun p _ => by ring
    rw [e, hAT b hb a ha]
    by_cases hab : a = b
    · subst hab; simp
    · rw [if_neg hab, if_neg fun hba => hab hba.symm]
  have hgram : ∀ a b, gramKron fs a b =
      matMulN (rowsProd fs) (denseKronEntry fs) (fun x y => denseKronEntry fs y x) a b := by
    intro a b
    show (∑ q in Finset.range (colsProd fs),
      denseKronEntry fs a q * denseKronEntry fs b q) = _
    rw [show Finset.range (colsProd fs) = Finset.range (rowsProd fs) from by rw [hrc]]
    rfl
  have hG2K : ∀ a < rowsProd fs, ∀ b < rowsProd fs,
      matMulN (rowsProd fs) (gramKron fs)
          (matMulN (rowsProd fs) (fun x y => denseKronEntry (fs.map solveFac) y x)
            (denseKronEntry (fs.map solveFac))) a b =
        if a = b then (1 : ℚ) else 0 := by
    intro a ha b hb
    rw [show matMulN (rowsProd fs) (gramKron fs)
        (matMulN (rowsProd fs) (fun x y => denseKronEntry (fs.map solveFac) y x)
          (denseKronEntry (fs.map solveFac))) a b =
      matMulN (rowsProd fs)
        (matMulN (rowsProd fs) (denseKronEntry fs) (fun x y => denseKronEntry fs y x))
        (matMulN (rowsProd fs) (fun x y => denseKronEntry (fs.map solveFac) y x)
          (denseKronEntry (fs.map solveFac))) a b from
      Finset.sum_congr rfl fun p _ => by rw [hgram a p]]
    rw [← matMulN_assoc]
    rw [show matMulN (rowsProd fs) (denseKronEntry fs)
        (matMulN (rowsProd fs) (fun x y => denseKronEntry fs y x)
          (matMulN (rowsProd fs) (fun x y => denseKronEntry (fs.map solveFac) y x)
            (denseKronEntry (fs.map solveFac)))) a b =
      matMulN (rowsProd fs) (denseKronEntry fs) (denseKronEntry (fs.map solveFac)) a b from
      Finset.sum_congr rfl fun p hp => by
        rw [matMulN_assoc,
          matMulN_delta_left (rowsProd fs)
            (matMulN (rowsProd fs) (fun x y => denseKronEntry fs y x)
              (fun x y => denseKronEntry (fs.map solveFac) y x))
            (denseKronEntry (fs.map solveFac)) hTtAt p (Finset.mem_range.mp hp) b]]
    exact hTA a ha b hb
  have hG2 : ∀ b < rowsProd fs,
      (∑ p in Finset.range (rowsProd fs),
        denseKronEntry (fs.map solveFac) p i * denseKronEntry (fs.map solveFac) p b) =
        Kinv i b := by
    intro b hb
    have e1 : (∑ p in Finset.range (rowsProd fs),
        denseKronEntry (fs.map solveFac) p i * denseKronEntry (fs.map solveFac) p b) =
      matMulN (rowsProd fs) (fun x y => denseKronEntry (fs.map solveFac) y x)
        (denseKronEntry (fs.map solveFac)) i b := rfl
    rw [e1]
    have e2 : matMulN (rowsProd fs) (matMulN (rowsProd fs) Kinv (gramKron fs))
        (matMulN (rowsProd fs) (fun x y => denseKronEntry (fs.map solveFac) y x)
          (denseKronEntry (fs.map solveFac))) i b =
      matMulN (rowsProd fs) (fun x y => denseKronEntry (fs.map solveFac) y x)
        (denseKronEntry (fs.map solveFac)) i b :=
      matMulN_delta_left (rowsProd fs) (matMulN (rowsProd fs) Kinv (gramKron fs)) _ hK i hi b
    rw [← e2, ← matMulN_assoc]
    rw [matMulN_delta_right (rowsProd fs) Kinv _ hG2K i b hb]
  rw [Finset.sum_congr rfl fun q hq => by
    rw [show (∑ p in Finset.range (rowsProd fs),
        denseKronEntry (fs.map solveFac) p i *
          (denseKronEntry (fs.map solveFac) p q * rhs (q * m + j))) =
      (∑ p in Finset.range (rowsProd fs),
        denseKronEntry (fs.map solveFac) p i * denseKronEntry (fs.map solveFac) p q) *
        rhs (q * m + j) from by
        rw [Finset.sum_mul]
        exact Finset.sum_congr rfl fun p _ => by ring,
      hG2 q (Finset.mem_range.mp hq)]]

/-- The exact inverse of `gramKron [facU, facV]`:
`(U Uᵀ)⁻¹ ⊗ (V Vᵀ)⁻¹`. -/
def Kinv0 : ℕ → ℕ → ℚ := fun i j =>
  m22 2 (-1) (-1) 1 (i / 2) (j / 2) * m22 (1/2) (-1/2) (-1/2) 1 (i % 2) (j % 2)

theorem kron_cholesky_solve_correct_witness :
    ((0 : ℕ) < 1 ∧
      (∀ f ∈ [facU, facV], f.r = f.c ∧ 0 < f.c ∧
        (∀ i < f.c, ∀ j < f.c,
          (∑ p in Finset.range f.c, f.inv i p * f.entry p j) =
            if i = j then (1 : ℚ) else 0) ∧
        (∀ i < f.c, ∀ j < f.c,
          (∑ p in Finset.range f.c, f.entry i p * f.inv p j) =
            if i = j then (1 : ℚ) else 0)) ∧
      (∀ i < rowsProd [facU, facV], ∀ j < rowsProd [facU, facV],
        (∑ p in Finset.range (rowsProd [facU, facV]),
          Kinv0 i p * gramKron [facU, facV] p j) = if i = j then (1 : ℚ) else 0)) ∧
    choleskySolveFlat [facU, facV] false (rowsProd [facU, facV]) 1 rhs0 (2 * 1 + 0) =
      ∑ p in Finset.range (rowsProd [facU, facV]), Kinv0 2 p * rhs0 (p * 1 + 0) :=
  ⟨⟨by decide,
      by
        intro f hf
        fin_cases hf <;> simp only [facU, facV] <;>
          refine ⟨trivial, by norm_num, ?_, ?_⟩ <;>
            (intro i hi j hj
             interval_cases i <;> interval_cases j <;>
               norm_num [m22, Finset.sum_range_succ]),
      by
        intro i hi j hj
        have h4 : rowsProd [facU, facV] = 4 := by decide
        have hc4 : colsProd [facU, facV] = 4 := by decide
        rw [h4] at hi hj ⊢
        simp only [gramKron, hc4]
        interval_cases i <;> interval_cases j <;>
          (simp only [Finset.sum_range_succ, Finset.sum_range_zero]
           norm_num [Kinv0, denseKronEntry, rowsProd, colsProd, facU, facV, m22])⟩,
    (kron_cholesky_solve_correct [facU, facV] 1 (by decide)
      (by
        intro f hf
        fin_cases hf <;> simp only [facU, facV] <;>
          refine ⟨trivial, by norm_num, ?_, ?_⟩ <;>
            (intro i hi j hj
             interval_cases i <;> interval_cases j <;>
               norm_num [m22, Finset.sum_range_succ]))
      Kinv0
      (by
        intro i hi j hj
        have h4 : rowsProd [facU, facV] = 4 := by decide
        have hc4 : colsProd [facU, facV] = 4 := by decide
        rw [h4] at hi hj ⊢
        simp only [gramKron, hc4]
        interval_cases i <;> interval_cases j <;>
          (simp only [Finset.sum_range_succ, Finset.sum_range_zero]
           norm_num [Kinv0, denseKronEntry, rowsProd, colsProd, facU, facV, m22]))
      rhs0).2.2 2 (by decide) 0 (by decide)⟩

/-- Construction failures (the source raises `RuntimeError` from
`__init__`; the error kinds distinguish the two validation checks). -/
inductive KronError where
  | batchMismatch : KronError
  | notTriangular : KronError

/-- The pairwise batch-shape check of
`KroneckerProductLazyTensor.__init__` (source lines 53–58):
`zip(lazy_tensors[:-1], lazy_tensors[1:])` compares each adjacent pair
of factors. -/
def batchesMatch : List Fac → Bool
  | [] => true
  | [_] => true
  | a :: b :: rest => decide (a.batch = b.batch) && batchesMatch (b :: rest)

/-- `KroneckerProductLazyTensor.__init__` (source lines 48–60): the
composite is created only when all adjacent batch shapes agree;
otherwise the constructor raises. -/
def mkKron (fs : List Fac) : Except KronError (List Fac) :=
  if batchesMatch fs then Except.ok fs else Except.error KronError.batchMismatch

/-- `KroneckerProductTriangularLazyTensor.__init__` (source lines
150–156): the triangularity check runs first, then the base
constructor. -/
def mkKronTri (fs : List Fac) (upper : Bool) : Except KronError (List Fac × Bool) :=
  if fs.all (fun f => f.isTri) then
    match mkKron fs with
    | Except.ok gs => Except.ok (gs, upper)
    | Except.error e => Except.error e
  else Except.error KronError.notTriangular

/-- `KroneckerProductLazyTensor._size` (source lines 112–116): reads
`self.lazy_tensors[0].batch_shape`, which is an out-of-range access on
an empty composite (modelled by `Option`). -/
def kronSize (fs : List Fac) : Option (List ℕ × ℕ × ℕ) :=
  match fs.head? with
  | none => none
  | some f0 => some (f0.batch, rowsProd fs, colsProd fs)

lemma batchesMatch_all_eq : ∀ (fs : List Fac), batchesMatch fs = true →
    ∀ a ∈ fs, ∀ b ∈ fs, a.batch = b.batch := by
  intro fs
  induction fs with
  | nil => intro _ a ha; simp at ha
  | cons f fs ih =>
      cases fs with
      | nil =>
          intro _ a ha b hb
          have ha' : a = f := by simpa using ha
          have hb' : b = f := by simpa using hb
          rw [ha', hb']
      | cons g rest =>
          intro hbm a ha b hb
          have hbm' : f.batch = g.batch ∧ batchesMatch (g :: rest) = true := by
            simpa [batchesMatch] using hbm
          have hx : ∀ x ∈ f :: g :: rest, x.batch = g.batch := by
            intro x hx
            rcases List.mem_cons.mp hx with hx | hx
            · rw [hx]; exact hbm'.1
            · exact ih hbm'.2 x hx g (List.mem_cons_self g rest)
          rw [hx a ha, hx b hb]

/-- Claim C8: constructing a composite from factors with any two disagreeing
batch shapes fails with the batch-mismatch construction error, and
constructing a triangular composite from any non-triangular factor
fails with the non-triangular construction error; in both cases no
composite is ever produced. -/
theorem kron_construction_errors (fs gs : List Fac) (u : Bool)
    (h1 : ∃ a ∈ fs, ∃ b ∈ fs, a.batch ≠ b.batch)
    (h2 : ∃ g ∈ gs, g.isTri = false) :
    (mkKron fs = Except.error KronError.batchMismatch ∧
      ∀ K, mkKron fs ≠ Except.ok K) ∧
    (mkKronTri gs u = Except.error KronError.notTriangular ∧
      ∀ K, mkKronTri gs u ≠ Except.ok K) := by
  obtain ⟨a, ha, b, hb, hab⟩ := h1
  have hbm : batchesMatch fs = false := by
    rcases Bool.eq_false_or_eq_true (batchesMatch fs) with hx | hx
    · exact absurd (batchesMatch_all_eq fs hx a ha b hb) hab
    · exact hx
  have e1 : mkKron fs = Except.error KronError.batchMismatch := by
    unfold mkKron
    rw [hbm]
    simp
  obtain ⟨g, hg, hgt⟩ := h2
  have e2 : mkKronTri gs u = Except.error KronError.notTriangular := by
    unfold mkKronTri
    have hall : gs.all (fun f => f.isTri) = false := by
      rcases Bool.eq_false_or_eq_true (gs.all fun f => f.isTri) with hx | hx
      · have := List.all_eq_true.mp hx g hg
        rw [hgt] at this
        exact absurd this (by simp)
      · exact hx
    rw [hall]
    simp
  exact ⟨⟨e1, fun K hK => by rw [e1] at hK; exact Except.noConfusion hK⟩,
    ⟨e2, fun K hK => by rw [e2] at hK; exact Except.noConfusion hK⟩⟩

/-- A factor with batch shape `[2]`. -/
def facBa : Fac := ⟨2, 2, [2], true, zeroMat, zeroMat, zeroMat⟩

/-- A factor with batch shape `[3]`. -/
def facBb : Fac := ⟨2, 2, [3], true, zeroMat, zeroMat, zeroMat⟩

/-- A non-triangular factor. -/
def facNT : Fac := ⟨2, 2, [], false, zeroMat, zeroMat, zeroMat⟩

theorem kron_construction_errors_witness :
    ((∃ a ∈ [facBa, facBb], ∃ b ∈ [facBa, facBb], a.batch ≠ b.batch) ∧
      (∃ g ∈ [facNT], g.isTri = false)) ∧
    (mkKron [facBa, facBb] = Except.error KronError.batchMismatch ∧
      mkKronTri [facNT] true = Except.error KronError.notTriangular) :=
  ⟨⟨by decide, by decide⟩,
    ⟨((kron_construction_errors [facBa, facBb] [facNT] true (by decide)
        (by decide)).1).1,
      ((kron_construction_errors [facBa, facBb] [facNT] true (by decide)
        (by decide)).2).1⟩⟩

/-- Claim C9: an empty factor list escapes construction validation — the
constructor's vacuous checks succeed and the composite is created, but
`size()` then fails with an out-of-range access on
`lazy_tensors[0].batch_shape`. -/
theorem kron_empty_escapes_validation :
    mkKron ([] : List Fac) = Except.ok ([] : List Fac) ∧
    kronSize ([] : List Fac) = none :=
  ⟨rfl, rfl⟩
